import Mathlib

/-!
Verification of the numerical-methods core of the `numerical` repository.

The repository ships two variants of its numerical library:

* `src/src/lib/math-utils.ts` — the named file.  Its three root-finders
  (`fixedPointIteration`, `newtonRaphson`, `secantMethod`) hard-code the
  target problem `f(x) = ln(x) - 1 = 0` (whose root is `e`), ignore their
  `targetValue` parameter, and call the platform `Math.log`.  Its
  `approximateDerivative` guards every expression evaluation through
  `safeEvaluate` / `safeDerivative` and an enclosing `try`/`catch`.
* an unnamed variant (`src/unnamed/part_004`) whose functions take the user
  expression as a parameter and evaluate it through the `mathjs` engine,
  which may throw; exceptions propagate out of the function.

Modelling conventions (shallow embedding over `ℚ`):

* JS numbers are modelled as rationals; the platform `Math.log` and the
  `mathjs` expression engine are external collaborators, so they enter the
  embedding as explicit parameters (`log : ℚ → ℚ`, an abstract expression
  type `E` with `evalE : E → ℚ → Except Unit ℚ` and a symbolic-derivative
  operator `derivE`).  `Except.error ()` models a thrown evaluation error.
* `parseFloat(v.toFixed(p))` is modelled by `roundTo p`, rounding to the
  nearest multiple of `10 ^ (-p)`.
* `fixedPointIteration` keeps `prevX` only to decide whether a previous
  iterate exists (its numeric value is never read), so the embedding keeps
  a `Bool` flag in its place.
* Iteration counts are `ℕ`; the `for (let i = 1; i <= n; i++)` loops are
  embedded as structural recursion on the number of remaining iterations,
  carrying the 1-based loop counter `i`.
-/

set_option maxRecDepth 4000

namespace Numerical

/-- The `1e-10` degeneracy tolerance used by all guards in the source. -/
def tol : ℚ := 1 / 10 ^ 10

/-- `parseFloat(q.toFixed p)`: round to `p` digits after the decimal point. -/
def roundTo (p : ℕ) (q : ℚ) : ℚ := (round (q * 10 ^ p) : ℤ) / 10 ^ p

/-- `q` has at most `p` digits after the decimal point. -/
def hasDecimals (p : ℕ) (q : ℚ) : Prop := (q * 10 ^ p).den = 1

instance (p : ℕ) (q : ℚ) : Decidable (hasDecimals p q) := by
  unfold hasDecimals; infer_instance

theorem hasDecimals_roundTo (p : ℕ) (q : ℚ) : hasDecimals p (roundTo p q) := by
  unfold hasDecimals roundTo
  rw [div_mul_cancel₀ _ (by positivity : ((10 : ℚ) ^ p) ≠ 0)]
  exact Rat.den_intCast _

/-- One row of a root-finder run (`IterationResult` in the source). -/
structure IterationResult where
  iteration : ℕ
  approximation : ℚ
  relativeError : Option ℚ
deriving DecidableEq

/-- Result record of `approximateDerivative` (`DerivativeResult` in the source). -/
structure DerivativeResult where
  forward : ℚ
  backward : ℚ
  centered : ℚ
  forwardError : Option ℚ
  backwardError : Option ℚ
  centeredError : Option ℚ
  symbolic : Option ℚ
deriving DecidableEq

/-- `calculateError(approx, exact)` (named `calcError` in the part_004
variant; identical in both files). -/
def calculateError (approx : ℚ) (exact : Option ℚ) : Option ℚ :=
  match exact with
  | none => none
  | some e => if |e| < tol then none else some (|(approx - e) / e| * 100)

namespace MathUtils

/-! ### `src/src/lib/math-utils.ts` — the named variant

The root-finders hard-code `f(x) = ln(x) - 1`, `f'(x) = 1/x` and
`G(x) = x - ln(x) + 1`; `log` is the platform `Math.log`, passed in
explicitly since it is an external (transcendental) collaborator. -/

/-- `f(val) = Math.log(val) - 1`. -/
def f (log : ℚ → ℚ) (val : ℚ) : ℚ := log val - 1

/-- `fPrime(val) = 1 / val`. -/
def fPrime (val : ℚ) : ℚ := 1 / val

/-- `G(val) = val - Math.log(val) + 1`. -/
def G (log : ℚ → ℚ) (val : ℚ) : ℚ := val - log val + 1

/-- The unrounded fixed-point orbit `x, G x, G (G x), …`. -/
def fpOrbit (log : ℚ → ℚ) (x0 : ℚ) : ℕ → ℚ
  | 0 => x0
  | k + 1 => G log (fpOrbit log x0 k)

/-- Relative error pushed at 0-based step `k ≥ 1` of fixed-point iteration:
`|(nextX - x) / nextX| * 100` with `x = fpOrbit k`, `nextX = fpOrbit (k+1)`. -/
def fpErr (log : ℚ → ℚ) (x0 : ℚ) (k : ℕ) : ℚ :=
  |(fpOrbit log x0 (k + 1) - fpOrbit log x0 k) / fpOrbit log x0 (k + 1)| * 100

/-- Loop body of `fixedPointIteration`; `fuel` is the number of remaining
iterations, `i` the 1-based loop counter, `hasPrev` tracks `prevX !== null`. -/
def fixedPointAux (log : ℚ → ℚ) (p : ℕ) :
    ℕ → ℕ → ℚ → Bool → List IterationResult
  | 0, _, _, _ => []
  | fuel + 1, i, x, hasPrev =>
    let nextX := G log x
    let relativeError : Option ℚ :=
      if hasPrev then some (|(nextX - x) / nextX| * 100) else none
    ⟨i, roundTo p nextX, relativeError.map (roundTo p)⟩ ::
      fixedPointAux log p fuel (i + 1) nextX true

/-- `fixedPointIteration(initialGuess, iterations, targetValue, precision)`. -/
def fixedPointIteration (log : ℚ → ℚ) (initialGuess : ℚ) (iterations : ℕ)
    (targetValue : ℚ) (precision : ℕ) : List IterationResult :=
  fixedPointAux log precision iterations 1 initialGuess false

/-- The unrounded Newton orbit for the hard-coded `f`, `fPrime`. -/
def nrOrbit (log : ℚ → ℚ) (x0 : ℚ) : ℕ → ℚ
  | 0 => x0
  | k + 1 =>
    let x := nrOrbit log x0 k
    x - f log x / fPrime x

/-- Relative error pushed at 0-based step `k` of Newton-Raphson. -/
def nrErr (log : ℚ → ℚ) (x0 : ℚ) (k : ℕ) : ℚ :=
  |(nrOrbit log x0 (k + 1) - nrOrbit log x0 k) / nrOrbit log x0 (k + 1)| * 100

/-- Loop body of `newtonRaphson`.  On `|fPrime x| < 1e-10` the source pushes
`{iteration: i, approximation: x, relativeError: null}` and breaks. -/
def newtonRaphsonAux (log : ℚ → ℚ) (p : ℕ) :
    ℕ → ℕ → ℚ → List IterationResult
  | 0, _, _ => []
  | fuel + 1, i, x =>
    let fx := f log x
    let fpx := fPrime x
    if |fpx| < tol then [⟨i, x, none⟩]
    else
      let nextX := x - fx / fpx
      let relativeError := |(nextX - x) / nextX| * 100
      ⟨i, roundTo p nextX, some (roundTo p relativeError)⟩ ::
        newtonRaphsonAux log p fuel (i + 1) nextX

/-- `newtonRaphson(initialGuess, iterations, targetValue, precision)`. -/
def newtonRaphson (log : ℚ → ℚ) (initialGuess : ℚ) (iterations : ℕ)
    (targetValue : ℚ) (precision : ℕ) : List IterationResult :=
  newtonRaphsonAux log precision iterations 1 initialGuess

/-- The unrounded secant state `(x0, x1)` after `k` steps. -/
def secOrbit (log : ℚ → ℚ) (g1 g2 : ℚ) : ℕ → ℚ × ℚ
  | 0 => (g1, g2)
  | k + 1 =>
    let s := secOrbit log g1 g2 k
    (s.2, s.2 - f log s.2 * (s.2 - s.1) / (f log s.2 - f log s.1))

/-- Relative error pushed at 0-based step `k` of the secant method. -/
def secErr (log : ℚ → ℚ) (g1 g2 : ℚ) (k : ℕ) : ℚ :=
  |((secOrbit log g1 g2 (k + 1)).2 - (secOrbit log g1 g2 k).2) /
      (secOrbit log g1 g2 (k + 1)).2| * 100

/-- Loop body of `secantMethod`.  On `|f x1 - f x0| < 1e-10` the source pushes
`{iteration: i, approximation: x1, relativeError: null}` and breaks. -/
def secantAux (log : ℚ → ℚ) (p : ℕ) :
    ℕ → ℕ → ℚ → ℚ → List IterationResult
  | 0, _, _, _ => []
  | fuel + 1, i, x0, x1 =>
    let fx0 := f log x0
    let fx1 := f log x1
    if |fx1 - fx0| < tol then [⟨i, x1, none⟩]
    else
      let nextX := x1 - fx1 * (x1 - x0) / (fx1 - fx0)
      let relativeError := |(nextX - x1) / nextX| * 100
      ⟨i, roundTo p nextX, some (roundTo p relativeError)⟩ ::
        secantAux log p fuel (i + 1) x1 nextX

/-- `secantMethod(guess1, guess2, iterations, targetValue, precision)`. -/
def secantMethod (log : ℚ → ℚ) (guess1 guess2 : ℚ) (iterations : ℕ)
    (targetValue : ℚ) (precision : ℕ) : List IterationResult :=
  secantAux log precision iterations 1 guess1 guess2

/-! ### Derivative approximation (`math-utils.ts`, lines 150-242)

A compiled `mathjs` node is an external collaborator: evaluating it at a
point either returns a JS number (finite or not), returns a non-number
(e.g. a complex value), or throws.  `node.evaluate(scope)` is therefore
modelled as a function `ℚ → EvalOutcome`; `compile` itself may throw, so
the compiled node arrives as an `Except`, and `mathDerivative` may throw,
so the result of `safeDerivative` arrives as an `Option` (`none` exactly
when differentiation threw, as in the source). -/

/-- Outcome of one raw `node.evaluate(scope)` call of the engine. -/
inductive EvalOutcome
  | num (q : ℚ)
  | nonFinite
  | thrown
deriving DecidableEq

/-- `safeEvaluate(node, scope)`: `null` unless the engine returns a finite
number. -/
def safeEvaluate (node : ℚ → EvalOutcome) (x : ℚ) : Option ℚ :=
  match node x with
  | .num q => some q
  | .nonFinite => none
  | .thrown => none

/-- `approximateDerivative(expression, guessValue, h, precision)`.
`compileRes` is the outcome of `compile(expression)` (`.error` when it
threw, caught by the enclosing `try`/`catch`); `safeDerivativeRes` is the
result of `safeDerivative(expression, 'x')`.  `Sum.inr` is the
`{ error: string }` return value. -/
def approximateDerivative (compileRes : Except Unit (ℚ → EvalOutcome))
    (safeDerivativeRes : Option (ℚ → EvalOutcome))
    (guessValue h : ℚ) (precision : ℕ) : DerivativeResult ⊕ String :=
  match compileRes with
  | .error _ =>
    .inr "An error occurred during derivative calculation. Please check the expression and inputs."
  | .ok compiledExpr =>
    let f_x := safeEvaluate compiledExpr guessValue
    let f_x_plus_h := safeEvaluate compiledExpr (guessValue + h)
    let f_x_minus_h := safeEvaluate compiledExpr (guessValue - h)
    match f_x, f_x_plus_h, f_x_minus_h with
    | some fx, some fxp, some fxm =>
      let forwardDiff := (fxp - fx) / h
      let backwardDiff := (fx - fxm) / h
      let centeredDiff := (fxp - fxm) / (2 * h)
      let symbolicDerivativeValue : Option ℚ :=
        safeDerivativeRes.bind (fun node => safeEvaluate node guessValue)
      let forwardError := calculateError forwardDiff symbolicDerivativeValue
      let backwardError := calculateError backwardDiff symbolicDerivativeValue
      let centeredError := calculateError centeredDiff symbolicDerivativeValue
      .inl
        { forward := roundTo precision forwardDiff
          backward := roundTo precision backwardDiff
          centered := roundTo precision centeredDiff
          forwardError := forwardError.map (roundTo precision)
          backwardError := backwardError.map (roundTo precision)
          centeredError := centeredError.map (roundTo precision)
          symbolic := symbolicDerivativeValue.map (roundTo precision) }
    | _, _, _ =>
      .inr "Failed to evaluate expression at necessary points. Check expression syntax and ensure it is valid for the given x values."

end MathUtils

namespace Part004

/-! ### The unnamed expression-parameterized variant (`src/unnamed/part_004`)

These functions take the user expression and call `mathjs` `evaluate`
directly, without any guard: a thrown evaluation error propagates out of
the function and destroys any partially accumulated result list.  The
engine is abstract: `E` is the type of expressions, `evalE e x` models
`evaluate(e, { x })` (`.error ()` = the engine threw), and `derivE e`
models `mathDerivative(e, 'x')` (`.error ()` = differentiation threw). -/

/-- `fixedPointIteration(gExpression, initialGuess, iterations, precision)`,
loop body.  A `.error ()` result models an uncaught evaluation exception. -/
def fixedPointAux {E : Type} (evalE : E → ℚ → Except Unit ℚ) (gExpression : E)
    (p : ℕ) : ℕ → ℕ → ℚ → Bool → Except Unit (List IterationResult)
  | 0, _, _, _ => .ok []
  | fuel + 1, i, x, hasPrev => do
    let nextX ← evalE gExpression x
    let relativeError : Option ℚ :=
      if hasPrev then some (|(nextX - x) / nextX| * 100) else none
    let rest ← fixedPointAux evalE gExpression p fuel (i + 1) nextX true
    return ⟨i, roundTo p nextX, relativeError.map (roundTo p)⟩ :: rest

/-- `fixedPointIteration` of the part_004 variant. -/
def fixedPointIteration {E : Type} (evalE : E → ℚ → Except Unit ℚ)
    (gExpression : E) (initialGuess : ℚ) (iterations precision : ℕ) :
    Except Unit (List IterationResult) :=
  fixedPointAux evalE gExpression precision iterations 1 initialGuess false

/-- The unrounded Newton orbit for step map `x ↦ x - F x / Fp x`. -/
def newtonOrbit (F Fp : ℚ → ℚ) (x0 : ℚ) : ℕ → ℚ
  | 0 => x0
  | k + 1 =>
    let x := newtonOrbit F Fp x0 k
    x - F x / Fp x

/-- `newtonRaphson(expression, initialGuess, iterations, precision)`, loop
body.  Each step evaluates `f` at `x`, symbolically differentiates the
expression, evaluates that derivative at `x`, and on `|fpx| < 1e-10`
breaks without pushing a record. -/
def newtonRaphsonAux {E : Type} (evalE : E → ℚ → Except Unit ℚ)
    (derivE : E → Except Unit E) (expression : E) (p : ℕ) :
    ℕ → ℕ → ℚ → Except Unit (List IterationResult)
  | 0, _, _ => .ok []
  | fuel + 1, i, x => do
    let fx ← evalE expression x
    let node ← derivE expression
    let fpx ← evalE node x
    if |fpx| < tol then return []
    else
      let nextX := x - fx / fpx
      let relativeError := |(nextX - x) / nextX| * 100
      let rest ← newtonRaphsonAux evalE derivE expression p fuel (i + 1) nextX
      return ⟨i, roundTo p nextX, some (roundTo p relativeError)⟩ :: rest

/-- `newtonRaphson` of the part_004 variant. -/
def newtonRaphson {E : Type} (evalE : E → ℚ → Except Unit ℚ)
    (derivE : E → Except Unit E) (expression : E) (initialGuess : ℚ)
    (iterations precision : ℕ) : Except Unit (List IterationResult) :=
  newtonRaphsonAux evalE derivE expression precision iterations 1 initialGuess

/-- `approximateDerivative(expression, guessValue, h, precision)` of the
part_004 variant, the body inside `try`.  Note the three error fields are
stored raw (no `toFixed`), unlike the named variant. -/
def approximateDerivativeRaw (compileRes : Except Unit (ℚ → Except Unit ℚ))
    (derivE : Except Unit (ℚ → Except Unit ℚ)) (guessValue h : ℚ)
    (p : ℕ) : Except Unit DerivativeResult := do
  let compiledExpr ← compileRes
  let fx ← compiledExpr guessValue
  let fxp ← compiledExpr (guessValue + h)
  let fxm ← compiledExpr (guessValue - h)
  let forwardDiff := (fxp - fx) / h
  let backwardDiff := (fx - fxm) / h
  let centeredDiff := (fxp - fxm) / (2 * h)
  let node ← derivE
  let symbolicDerivativeValue ← node guessValue
  return { forward := roundTo p forwardDiff
           backward := roundTo p backwardDiff
           centered := roundTo p centeredDiff
           forwardError := calculateError forwardDiff (some symbolicDerivativeValue)
           backwardError := calculateError backwardDiff (some symbolicDerivativeValue)
           centeredError := calculateError centeredDiff (some symbolicDerivativeValue)
           symbolic := some (roundTo p symbolicDerivativeValue) }

/-- `approximateDerivative` of the part_004 variant with its `catch`. -/
def approximateDerivative (compileRes : Except Unit (ℚ → Except Unit ℚ))
    (derivE : Except Unit (ℚ → Except Unit ℚ)) (guessValue h : ℚ)
    (p : ℕ) : DerivativeResult ⊕ String :=
  match approximateDerivativeRaw compileRes derivE guessValue h p with
  | .ok r => .inl r
  | .error _ => .inr "An error occurred during derivative calculation."

end Part004

/-! ### A concrete expression engine used to instantiate witnesses

The source delegates parsing, evaluation and symbolic differentiation to
`mathjs`; the theorems below quantify over that collaborator.  For closed
witness statements we need one concrete instance: a small arithmetic
expression language over `ℚ` whose reciprocal fails (throws) on `0` and
which cannot differentiate `inv`. -/

inductive MExpr
  | num (q : ℚ)
  | var
  | add (a b : MExpr)
  | mul (a b : MExpr)
  | inv (a : MExpr)
deriving DecidableEq

/-- Evaluate an `MExpr` at `x`; reciprocal of zero throws. -/
def MExpr.evalAt : MExpr → ℚ → Except Unit ℚ
  | .num q, _ => .ok q
  | .var, x => .ok x
  | .add a b, x => do
    let u ← a.evalAt x
    let v ← b.evalAt x
    return u + v
  | .mul a b, x => do
    let u ← a.evalAt x
    let v ← b.evalAt x
    return u * v
  | .inv a, x => do
    let v ← a.evalAt x
    if v = 0 then Except.error () else return v⁻¹

/-- Symbolic differentiation of an `MExpr`; `inv` is unsupported (throws),
modelling an engine that fails distinguishably on expressions it cannot
differentiate. -/
def MExpr.derivOf : MExpr → Except Unit MExpr
  | .num _ => .ok (.num 0)
  | .var => .ok (.num 1)
  | .add a b => do
    let u ← a.derivOf
    let v ← b.derivOf
    return .add u v
  | .mul a b => do
    let u ← a.derivOf
    let v ← b.derivOf
    return .add (.mul u b) (.mul a v)
  | .inv _ => .error ()

/-! ## Characterization lemmas (helpers) -/

namespace MathUtils

theorem fixedPointAux_true_eq (log : ℚ → ℚ) (p : ℕ) (x0 : ℚ) :
    ∀ fuel m, fixedPointAux log p fuel (m + 1) (fpOrbit log x0 m) true =
      (List.range fuel).map (fun k =>
        ⟨m + 1 + k, roundTo p (fpOrbit log x0 (m + 1 + k)),
          some (roundTo p (fpErr log x0 (m + k)))⟩) := by
  intro fuel
  induction fuel with
  | zero => intro m; rfl
  | succ fuel ih =>
    intro m
    rw [List.range_succ_eq_map, List.map_cons, List.map_map]
    show (⟨m + 1, roundTo p (G log (fpOrbit log x0 m)),
        some (roundTo p (|(G log (fpOrbit log x0 m) - fpOrbit log x0 m) /
          G log (fpOrbit log x0 m)| * 100))⟩ : IterationResult) ::
        fixedPointAux log p fuel (m + 1 + 1) (G log (fpOrbit log x0 m)) true = _
    have horb : G log (fpOrbit log x0 m) = fpOrbit log x0 (m + 1) := rfl
    rw [horb]
    congr 1
    rw [ih (m + 1)]
    apply List.map_congr_left
    intro k _
    show (⟨m + 1 + 1 + k, roundTo p (fpOrbit log x0 (m + 1 + 1 + k)),
        some (roundTo p (fpErr log x0 (m + 1 + k)))⟩ : IterationResult) = _
    have e1 : m + 1 + 1 + k = m + 1 + (k + 1) := by omega
    have e2 : m + 1 + k = m + (k + 1) := by omega
    rw [e1, e2]
    rfl

/-- Closed form of `fixedPointIteration`: the run is the rounding of the
unrounded orbit, with a `null` error exactly on the first record. -/
theorem fixedPointIteration_eq (log : ℚ → ℚ) (x0 : ℚ) (n : ℕ) (t : ℚ) (p : ℕ) :
    fixedPointIteration log x0 n t p =
      (List.range n).map (fun k =>
        ⟨k + 1, roundTo p (fpOrbit log x0 (k + 1)),
          if k = 0 then none else some (roundTo p (fpErr log x0 k))⟩) := by
  cases n with
  | zero => rfl
  | succ fuel =>
    rw [List.range_succ_eq_map, List.map_cons, List.map_map]
    show (⟨1, roundTo p (G log x0), none⟩ : IterationResult) ::
        fixedPointAux log p fuel (1 + 1) (G log x0) true = _
    have horb : G log x0 = fpOrbit log x0 1 := rfl
    rw [horb]
    congr 1
    rw [fixedPointAux_true_eq log p x0 fuel 1]
    apply List.map_congr_left
    intro k _
    show (⟨1 + 1 + k, roundTo p (fpOrbit log x0 (1 + 1 + k)),
        some (roundTo p (fpErr log x0 (1 + k)))⟩ : IterationResult) = _
    have e1 : 1 + 1 + k = k + 1 + 1 := by omega
    have e2 : 1 + k = k + 1 := by omega
    rw [e1, e2]
    rfl

theorem newtonRaphsonAux_eq (log : ℚ → ℚ) (p : ℕ) (x0 : ℚ) :
    ∀ fuel m, (∀ j, j < fuel → ¬ |fPrime (nrOrbit log x0 (m + j))| < tol) →
      newtonRaphsonAux log p fuel (m + 1) (nrOrbit log x0 m) =
        (List.range fuel).map (fun k =>
          ⟨m + 1 + k, roundTo p (nrOrbit log x0 (m + 1 + k)),
            some (roundTo p (nrErr log x0 (m + k)))⟩) := by
  intro fuel
  induction fuel with
  | zero => intro m _; rfl
  | succ fuel ih =>
    intro m hnd
    rw [List.range_succ_eq_map, List.map_cons, List.map_map]
    have hguard : ¬ |fPrime (nrOrbit log x0 m)| < tol := by
      have := hnd 0 (Nat.succ_pos fuel)
      simpa using this
    show (if |fPrime (nrOrbit log x0 m)| < tol then _ else _) = _
    rw [if_neg hguard]
    have horb : nrOrbit log x0 m - f log (nrOrbit log x0 m) /
        fPrime (nrOrbit log x0 m) = nrOrbit log x0 (m + 1) := rfl
    rw [horb]
    congr 1
    rw [ih (m + 1) (fun j hj => by
      have := hnd (j + 1) (by omega)
      have e : m + (j + 1) = m + 1 + j := by omega
      rwa [e] at this)]
    apply List.map_congr_left
    intro k _
    show (⟨m + 1 + 1 + k, roundTo p (nrOrbit log x0 (m + 1 + 1 + k)),
        some (roundTo p (nrErr log x0 (m + 1 + k)))⟩ : IterationResult) = _
    have e1 : m + 1 + 1 + k = m + 1 + (k + 1) := by omega
    have e2 : m + 1 + k = m + (k + 1) := by omega
    rw [e1, e2]
    rfl

/-- Closed form of `newtonRaphson` when the degeneracy guard never fires:
the run is the rounding of the unrounded Newton orbit, every record with a
computed relative error. -/
theorem newtonRaphson_eq (log : ℚ → ℚ) (x0 : ℚ) (n : ℕ) (t : ℚ) (p : ℕ)
    (hnd : ∀ j, j < n → ¬ |fPrime (nrOrbit log x0 j)| < tol) :
    newtonRaphson log x0 n t p =
      (List.range n).map (fun k =>
        ⟨k + 1, roundTo p (nrOrbit log x0 (k + 1)),
          some (roundTo p (nrErr log x0 k))⟩) := by
  have h := newtonRaphsonAux_eq log p x0 n 0 (fun j hj => by simpa using hnd j hj)
  refine (show newtonRaphson log x0 n t p =
    newtonRaphsonAux log p n (0 + 1) (nrOrbit log x0 0) from rfl).trans (h.trans ?_)
  apply List.map_congr_left
  intro k _
  have e1 : 0 + 1 + k = k + 1 := by omega
  have e2 : 0 + k = k := by omega
  rw [e1, e2]

/-- Closed form of `newtonRaphson` when the degeneracy guard first fires at
0-based step `k`: the records of the `k` completed steps, then one final
record holding the current (unrounded) iterate and a `null` error. -/
theorem newtonRaphsonAux_degen (log : ℚ → ℚ) (p : ℕ) (x0 : ℚ) :
    ∀ k fuel m, k < fuel →
      (∀ j, j < k → ¬ |fPrime (nrOrbit log x0 (m + j))| < tol) →
      |fPrime (nrOrbit log x0 (m + k))| < tol →
      newtonRaphsonAux log p fuel (m + 1) (nrOrbit log x0 m) =
        ((List.range k).map (fun j =>
          ⟨m + 1 + j, roundTo p (nrOrbit log x0 (m + 1 + j)),
            some (roundTo p (nrErr log x0 (m + j)))⟩)) ++
          [⟨m + 1 + k, nrOrbit log x0 (m + k), none⟩] := by
  intro k
  induction k with
  | zero =>
    intro fuel m hk _ hdeg
    obtain ⟨fuel', rfl⟩ : ∃ fuel', fuel = fuel' + 1 :=
      ⟨fuel - 1, by omega⟩
    show (if |fPrime (nrOrbit log x0 m)| < tol then _ else _) = _
    rw [if_pos (by simpa using hdeg)]
    simp
  | succ k ih =>
    intro fuel m hk hj hdeg
    obtain ⟨fuel', rfl⟩ : ∃ fuel', fuel = fuel' + 1 :=
      ⟨fuel - 1, by omega⟩
    have hguard : ¬ |fPrime (nrOrbit log x0 m)| < tol := by
      have := hj 0 (Nat.succ_pos k)
      simpa using this
    show (if |fPrime (nrOrbit log x0 m)| < tol then _ else _) = _
    rw [if_neg hguard]
    have horb : nrOrbit log x0 m - f log (nrOrbit log x0 m) /
        fPrime (nrOrbit log x0 m) = nrOrbit log x0 (m + 1) := rfl
    rw [horb, List.range_succ_eq_map, List.map_cons, List.map_map,
      List.cons_append]
    congr 1
    rw [ih fuel' (m + 1) (by omega)
      (fun j hjk => by
        have := hj (j + 1) (by omega)
        have e : m + (j + 1) = m + 1 + j := by omega
        rwa [e] at this)
      (by
        have e : m + (k + 1) = m + 1 + k := by omega
        rwa [e] at hdeg)]
    congr 1
    · apply List.map_congr_left
      intro j _
      show (⟨m + 1 + 1 + j, roundTo p (nrOrbit log x0 (m + 1 + 1 + j)),
          some (roundTo p (nrErr log x0 (m + 1 + j)))⟩ : IterationResult) = _
      have e1 : m + 1 + 1 + j = m + 1 + (j + 1) := by omega
      have e2 : m + 1 + j = m + (j + 1) := by omega
      rw [e1, e2]
      rfl
    · have e1 : m + 1 + 1 + k = m + 1 + (k + 1) := by omega
      have e2 : m + 1 + k = m + (k + 1) := by omega
      rw [e1, e2]

/-- Degeneracy condition of the secant method at 0-based step `k`. -/
def secDegen (log : ℚ → ℚ) (g1 g2 : ℚ) (k : ℕ) : Prop :=
  |f log (secOrbit log g1 g2 k).2 - f log (secOrbit log g1 g2 k).1| < tol

instance (log : ℚ → ℚ) (g1 g2 : ℚ) (k : ℕ) : Decidable (secDegen log g1 g2 k) := by
  unfold secDegen; infer_instance

theorem secantAux_eq (log : ℚ → ℚ) (p : ℕ) (g1 g2 : ℚ) :
    ∀ fuel m, (∀ j, j < fuel → ¬ secDegen log g1 g2 (m + j)) →
      secantAux log p fuel (m + 1) (secOrbit log g1 g2 m).1 (secOrbit log g1 g2 m).2 =
        (List.range fuel).map (fun k =>
          ⟨m + 1 + k, roundTo p ((secOrbit log g1 g2 (m + 1 + k)).2),
            some (roundTo p (secErr log g1 g2 (m + k)))⟩) := by
  intro fuel
  induction fuel with
  | zero => intro m _; rfl
  | succ fuel ih =>
    intro m hnd
    rw [List.range_succ_eq_map, List.map_cons, List.map_map]
    have hguard : ¬ secDegen log g1 g2 m := by
      have := hnd 0 (Nat.succ_pos fuel)
      simpa using this
    show (if |f log (secOrbit log g1 g2 m).2 - f log (secOrbit log g1 g2 m).1| < tol
        then _ else _) = _
    rw [if_neg (show ¬ |f log (secOrbit log g1 g2 m).2 -
      f log (secOrbit log g1 g2 m).1| < tol from hguard)]
    have horb : (secOrbit log g1 g2 m).2 -
        f log (secOrbit log g1 g2 m).2 *
          ((secOrbit log g1 g2 m).2 - (secOrbit log g1 g2 m).1) /
          (f log (secOrbit log g1 g2 m).2 - f log (secOrbit log g1 g2 m).1) =
        (secOrbit log g1 g2 (m + 1)).2 := rfl
    have horb1 : (secOrbit log g1 g2 m).2 = (secOrbit log g1 g2 (m + 1)).1 := rfl
    rw [horb]
    congr 1
    rw [horb1, ih (m + 1) (fun j hj => by
      have := hnd (j + 1) (by omega)
      have e : m + (j + 1) = m + 1 + j := by omega
      rwa [e] at this)]
    apply List.map_congr_left
    intro k _
    show (⟨m + 1 + 1 + k, roundTo p ((secOrbit log g1 g2 (m + 1 + 1 + k)).2),
        some (roundTo p (secErr log g1 g2 (m + 1 + k)))⟩ : IterationResult) = _
    have e1 : m + 1 + 1 + k = m + 1 + (k + 1) := by omega
    have e2 : m + 1 + k = m + (k + 1) := by omega
    rw [e1, e2]
    rfl

/-- Closed form of `secantMethod` when the degeneracy guard never fires. -/
theorem secantMethod_eq (log : ℚ → ℚ) (g1 g2 : ℚ) (n : ℕ) (t : ℚ) (p : ℕ)
    (hnd : ∀ j, j < n → ¬ secDegen log g1 g2 j) :
    secantMethod log g1 g2 n t p =
      (List.range n).map (fun k =>
        ⟨k + 1, roundTo p ((secOrbit log g1 g2 (k + 1)).2),
          some (roundTo p (secErr log g1 g2 k))⟩) := by
  have h := secantAux_eq log p g1 g2 n 0 (fun j hj => by simpa using hnd j hj)
  refine (show secantMethod log g1 g2 n t p =
    secantAux log p n (0 + 1) (secOrbit log g1 g2 0).1 (secOrbit log g1 g2 0).2
    from rfl).trans (h.trans ?_)
  apply List.map_congr_left
  intro k _
  have e1 : 0 + 1 + k = k + 1 := by omega
  have e2 : 0 + k = k := by omega
  rw [e1, e2]

/-- Closed form of `secantMethod` when the degeneracy guard first fires at
0-based step `k`: the records of the `k` completed steps, then one final
record holding the current (unrounded) `x1` and a `null` error. -/
theorem secantAux_degen (log : ℚ → ℚ) (p : ℕ) (g1 g2 : ℚ) :
    ∀ k fuel m, k < fuel →
      (∀ j, j < k → ¬ secDegen log g1 g2 (m + j)) →
      secDegen log g1 g2 (m + k) →
      secantAux log p fuel (m + 1) (secOrbit log g1 g2 m).1 (secOrbit log g1 g2 m).2 =
        ((List.range k).map (fun j =>
          ⟨m + 1 + j, roundTo p ((secOrbit log g1 g2 (m + 1 + j)).2),
            some (roundTo p (secErr log g1 g2 (m + j)))⟩)) ++
          [⟨m + 1 + k, (secOrbit log g1 g2 (m + k)).2, none⟩] := by
  intro k
  induction k with
  | zero =>
    intro fuel m hk _ hdeg
    obtain ⟨fuel', rfl⟩ : ∃ fuel', fuel = fuel' + 1 := ⟨fuel - 1, by omega⟩
    show (if |f log (secOrbit log g1 g2 m).2 - f log (secOrbit log g1 g2 m).1| < tol
        then _ else _) = _
    rw [if_pos (by simpa using hdeg)]
    simp
  | succ k ih =>
    intro fuel m hk hj hdeg
    obtain ⟨fuel', rfl⟩ : ∃ fuel', fuel = fuel' + 1 := ⟨fuel - 1, by omega⟩
    have hguard : ¬ secDegen log g1 g2 m := by
      have := hj 0 (Nat.succ_pos k)
      simpa using this
    show (if |f log (secOrbit log g1 g2 m).2 - f log (secOrbit log g1 g2 m).1| < tol
        then _ else _) = _
    rw [if_neg (show ¬ |f log (secOrbit log g1 g2 m).2 -
      f log (secOrbit log g1 g2 m).1| < tol from hguard)]
    have horb : (secOrbit log g1 g2 m).2 -
        f log (secOrbit log g1 g2 m).2 *
          ((secOrbit log g1 g2 m).2 - (secOrbit log g1 g2 m).1) /
          (f log (secOrbit log g1 g2 m).2 - f log (secOrbit log g1 g2 m).1) =
        (secOrbit log g1 g2 (m + 1)).2 := rfl
    have horb1 : (secOrbit log g1 g2 m).2 = (secOrbit log g1 g2 (m + 1)).1 := rfl
    rw [horb, List.range_succ_eq_map, List.map_cons, List.map_map,
      List.cons_append]
    congr 1
    rw [horb1, ih fuel' (m + 1) (by omega)
      (fun j hjk => by
        have := hj (j + 1) (by omega)
        have e : m + (j + 1) = m + 1 + j := by omega
        rwa [e] at this)
      (by
        have e : m + (k + 1) = m + 1 + k := by omega
        rwa [e] at hdeg)]
    congr 1
    · apply List.map_congr_left
      intro j _
      show (⟨m + 1 + 1 + j, roundTo p ((secOrbit log g1 g2 (m + 1 + 1 + j)).2),
          some (roundTo p (secErr log g1 g2 (m + 1 + j)))⟩ : IterationResult) = _
      have e1 : m + 1 + 1 + j = m + 1 + (j + 1) := by omega
      have e2 : m + 1 + j = m + (j + 1) := by omega
      rw [e1, e2]
      rfl
    · have e1 : m + 1 + 1 + k = m + 1 + (k + 1) := by omega
      have e2 : m + 1 + k = m + (k + 1) := by omega
      rw [e1, e2]

/-- One Newton step `nextX = x - f(x)/fPrime(x)` (shorthand). -/
def nrStep (log : ℚ → ℚ) (x : ℚ) : ℚ := x - f log x / fPrime x

/-- The relative error computed by a Newton step (shorthand). -/
def nrRel (log : ℚ → ℚ) (x : ℚ) : ℚ :=
  |(nrStep log x - x) / nrStep log x| * 100

theorem newtonRaphsonAux_unfold (log : ℚ → ℚ) (p fuel i : ℕ) (x : ℚ) :
    newtonRaphsonAux log p (fuel + 1) i x =
      if |fPrime x| < tol then [⟨i, x, none⟩]
      else ⟨i, roundTo p (nrStep log x), some (roundTo p (nrRel log x))⟩ ::
        newtonRaphsonAux log p fuel (i + 1) (nrStep log x) := rfl

/-- One secant step `nextX = x1 - f(x1)(x1-x0)/(f(x1)-f(x0))` (shorthand). -/
def secNext (log : ℚ → ℚ) (x0 x1 : ℚ) : ℚ :=
  x1 - f log x1 * (x1 - x0) / (f log x1 - f log x0)

/-- The relative error computed by a secant step (shorthand). -/
def secRel (log : ℚ → ℚ) (x0 x1 : ℚ) : ℚ :=
  |(secNext log x0 x1 - x1) / secNext log x0 x1| * 100

theorem secantAux_unfold (log : ℚ → ℚ) (p fuel i : ℕ) (x0 x1 : ℚ) :
    secantAux log p (fuel + 1) i x0 x1 =
      if |f log x1 - f log x0| < tol then [⟨i, x1, none⟩]
      else ⟨i, roundTo p (secNext log x0 x1), some (roundTo p (secRel log x0 x1))⟩ ::
        secantAux log p fuel (i + 1) x1 (secNext log x0 x1) := rfl

/-- The `iteration` fields of a Newton-Raphson run are a contiguous run
`i, i+1, …` of length at most `fuel`. -/
theorem newtonRaphsonAux_iterations (log : ℚ → ℚ) (p : ℕ) :
    ∀ fuel i x, ∃ len, len ≤ fuel ∧
      (newtonRaphsonAux log p fuel i x).map IterationResult.iteration =
        List.range' i len := by
  intro fuel
  induction fuel with
  | zero => intro i x; exact ⟨0, Nat.le_refl 0, rfl⟩
  | succ fuel ih =>
    intro i x
    rw [newtonRaphsonAux_unfold]
    by_cases hdeg : |fPrime x| < tol
    · exact ⟨1, by omega, by rw [if_pos hdeg]; rfl⟩
    · obtain ⟨len, hlen, hmap⟩ := ih (i + 1) (nrStep log x)
      refine ⟨len + 1, by omega, ?_⟩
      rw [if_neg hdeg, List.map_cons, hmap, List.range'_succ i len 1]

/-- The `iteration` fields of a secant run are a contiguous run of length
at most `fuel`. -/
theorem secantAux_iterations (log : ℚ → ℚ) (p : ℕ) :
    ∀ fuel i x0 x1, ∃ len, len ≤ fuel ∧
      (secantAux log p fuel i x0 x1).map IterationResult.iteration =
        List.range' i len := by
  intro fuel
  induction fuel with
  | zero => intro i x0 x1; exact ⟨0, Nat.le_refl 0, rfl⟩
  | succ fuel ih =>
    intro i x0 x1
    rw [secantAux_unfold]
    by_cases hdeg : |f log x1 - f log x0| < tol
    · exact ⟨1, by omega, by rw [if_pos hdeg]; rfl⟩
    · obtain ⟨len, hlen, hmap⟩ := ih (i + 1) x1 (secNext log x0 x1)
      refine ⟨len + 1, by omega, ?_⟩
      rw [if_neg hdeg, List.map_cons, hmap, List.range'_succ i len 1]

/-- Every Newton-Raphson record that carries a computed relative error has
both numeric fields rounded to `p` digits. -/
theorem newtonRaphsonAux_rounded (log : ℚ → ℚ) (p : ℕ) :
    ∀ fuel i x r, r ∈ newtonRaphsonAux log p fuel i x →
      ∀ e, r.relativeError = some e →
        hasDecimals p r.approximation ∧ hasDecimals p e := by
  intro fuel
  induction fuel with
  | zero => intro i x r hr; cases hr
  | succ fuel ih =>
    intro i x r hr e he
    rw [newtonRaphsonAux_unfold] at hr
    by_cases hdeg : |fPrime x| < tol
    · rw [if_pos hdeg] at hr
      rw [List.mem_singleton.mp hr] at he
      cases he
    · rw [if_neg hdeg] at hr
      rcases List.mem_cons.mp hr with h | h
      · rw [h] at he ⊢
        obtain rfl : e = roundTo p (nrRel log x) := by
          simpa using he.symm
        exact ⟨hasDecimals_roundTo p _, hasDecimals_roundTo p _⟩
      · exact ih (i + 1) (nrStep log x) r h e he


/-- Every secant record that carries a computed relative error has both
numeric fields rounded to `p` digits. -/
theorem secantAux_rounded (log : ℚ → ℚ) (p : ℕ) :
    ∀ fuel i x0 x1 r, r ∈ secantAux log p fuel i x0 x1 →
      ∀ e, r.relativeError = some e →
        hasDecimals p r.approximation ∧ hasDecimals p e := by
  intro fuel
  induction fuel with
  | zero => intro i x0 x1 r hr; cases hr
  | succ fuel ih =>
    intro i x0 x1 r hr e he
    rw [secantAux_unfold] at hr
    by_cases hdeg : |f log x1 - f log x0| < tol
    · rw [if_pos hdeg] at hr
      rw [List.mem_singleton.mp hr] at he
      cases he
    · rw [if_neg hdeg] at hr
      rcases List.mem_cons.mp hr with h | h
      · rw [h] at he ⊢
        obtain rfl : e = roundTo p (secRel log x0 x1) := by
          simpa using he.symm
        exact ⟨hasDecimals_roundTo p _, hasDecimals_roundTo p _⟩
      · exact ih (i + 1) x1 (secNext log x0 x1) r h e he

/-- In a Newton-Raphson run, only the final record can carry a `null`
relative error. -/
theorem newtonRaphsonAux_none_last (log : ℚ → ℚ) (p : ℕ) :
    ∀ fuel i x j r, (newtonRaphsonAux log p fuel i x)[j]? = some r →
      r.relativeError = none →
      j + 1 = (newtonRaphsonAux log p fuel i x).length := by
  intro fuel
  induction fuel with
  | zero => intro i x j r hr; cases hr
  | succ fuel ih =>
    intro i x j r hr hnone
    rw [newtonRaphsonAux_unfold] at hr ⊢
    by_cases hdeg : |fPrime x| < tol
    · rw [if_pos hdeg] at hr ⊢
      match j, hr with
      | 0, hr => rfl
    · rw [if_neg hdeg] at hr ⊢
      match j, hr with
      | 0, hr =>
        exfalso
        have : r = ⟨i, roundTo p (nrStep log x), some (roundTo p (nrRel log x))⟩ := by
          simpa using hr.symm
        rw [this] at hnone
        cases hnone
      | j + 1, hr =>
        have hr' : (newtonRaphsonAux log p fuel (i + 1) (nrStep log x))[j]? = some r := by
          simpa using hr
        have := ih (i + 1) (nrStep log x) j r hr' hnone
        simp [List.length_cons]
        omega

/-- In a secant run, only the final record can carry a `null` relative
error. -/
theorem secantAux_none_last (log : ℚ → ℚ) (p : ℕ) :
    ∀ fuel i x0 x1 j r, (secantAux log p fuel i x0 x1)[j]? = some r →
      r.relativeError = none →
      j + 1 = (secantAux log p fuel i x0 x1).length := by
  intro fuel
  induction fuel with
  | zero => intro i x0 x1 j r hr; cases hr
  | succ fuel ih =>
    intro i x0 x1 j r hr hnone
    rw [secantAux_unfold] at hr ⊢
    by_cases hdeg : |f log x1 - f log x0| < tol
    · rw [if_pos hdeg] at hr ⊢
      match j, hr with
      | 0, hr => rfl
    · rw [if_neg hdeg] at hr ⊢
      match j, hr with
      | 0, hr =>
        exfalso
        have : r = ⟨i, roundTo p (secNext log x0 x1), some (roundTo p (secRel log x0 x1))⟩ := by
          simpa using hr.symm
        rw [this] at hnone
        cases hnone
      | j + 1, hr =>
        have hr' : (secantAux log p fuel (i + 1) x1 (secNext log x0 x1))[j]? = some r := by
          simpa using hr
        have := ih (i + 1) x1 (secNext log x0 x1) j r hr' hnone
        simp [List.length_cons]
        omega

end MathUtils

/-! ## Except-monad reduction helpers -/

theorem except_bind_ok {α β : Type} (a : α) (g : α → Except Unit β) :
    ((Except.ok a : Except Unit α) >>= g) = g a := rfl

theorem except_bind_error {α β : Type} (g : α → Except Unit β) :
    ((Except.error () : Except Unit α) >>= g) = Except.error () := rfl

namespace Part004

/-- Unrounded relative error of step `k` of the part_004 Newton run. -/
def newtonErr (F Fp : ℚ → ℚ) (x0 : ℚ) (k : ℕ) : ℚ :=
  |(newtonOrbit F Fp x0 (k + 1) - newtonOrbit F Fp x0 k) /
      newtonOrbit F Fp x0 (k + 1)| * 100

/-- A successful part_004 fixed-point run has exactly `fuel` records with
contiguous `iteration` fields starting at `i`. -/
theorem fixedPointAux_ok_iterations {E : Type} (evalE : E → ℚ → Except Unit ℚ)
    (g : E) (p : ℕ) :
    ∀ fuel i x b rs, fixedPointAux evalE g p fuel i x b = .ok rs →
      rs.map IterationResult.iteration = List.range' i fuel := by
  intro fuel
  induction fuel with
  | zero =>
    intro i x b rs h
    injection h with h2
    rw [← h2]
    rfl
  | succ fuel ih =>
    intro i x b rs h
    unfold fixedPointAux at h
    cases hv : evalE g x with
    | error e =>
      obtain rfl : e = () := rfl
      rw [hv, except_bind_error] at h
      cases h
    | ok v =>
      rw [hv, except_bind_ok] at h
      cases hrest : fixedPointAux evalE g p fuel (i + 1) v true with
      | error e =>
        obtain rfl : e = () := rfl
        rw [hrest, except_bind_error] at h
        cases h
      | ok rest =>
        rw [hrest, except_bind_ok] at h
        obtain rfl : rs = _ :: rest := ((Except.ok.injEq _ _).mp h).symm
        rw [List.map_cons, ih (i + 1) v true rest hrest, List.range'_succ i fuel 1]

/-- If the evaluator throws at the iterate reached after `k` successful
steps, the whole part_004 fixed-point call fails. -/
theorem fixedPointAux_fails {E : Type} (evalE : E → ℚ → Except Unit ℚ)
    (g : E) (p : ℕ) :
    ∀ k fuel i b (xs : ℕ → ℚ),
      (∀ j, j < k → evalE g (xs j) = .ok (xs (j + 1))) →
      evalE g (xs k) = .error () → k < fuel →
      fixedPointAux evalE g p fuel i (xs 0) b = .error () := by
  intro k
  induction k with
  | zero =>
    intro fuel i b xs _ hfail hk
    obtain ⟨fuel', rfl⟩ : ∃ fuel', fuel = fuel' + 1 := ⟨fuel - 1, by omega⟩
    unfold fixedPointAux
    rw [hfail, except_bind_error]
  | succ k ih =>
    intro fuel i b xs hok hfail hk
    obtain ⟨fuel', rfl⟩ : ∃ fuel', fuel = fuel' + 1 := ⟨fuel - 1, by omega⟩
    unfold fixedPointAux
    rw [hok 0 (by omega), except_bind_ok]
    rw [show fixedPointAux evalE g p fuel' (i + 1) (xs (0 + 1)) true = Except.error ()
      from ih fuel' (i + 1) true (fun j => xs (j + 1))
        (fun j hj => hok (j + 1) (by omega)) hfail (by omega)]
    rw [except_bind_error]

theorem newtonRaphsonAux_unfold004 {E : Type} (evalE : E → ℚ → Except Unit ℚ)
    (derivE : E → Except Unit E) (expression : E) (p fuel i : ℕ) (x : ℚ) :
    newtonRaphsonAux evalE derivE expression p (fuel + 1) i x =
      (evalE expression x) >>= fun fx =>
      (derivE expression) >>= fun node =>
      (evalE node x) >>= fun fpx =>
      if |fpx| < tol then .ok []
      else
        (newtonRaphsonAux evalE derivE expression p fuel (i + 1) (x - fx / fpx))
          >>= fun rest =>
          .ok (⟨i, roundTo p (x - fx / fpx),
            some (roundTo p (|(x - fx / fpx - x) / (x - fx / fpx)| * 100))⟩ :: rest) :=
  rfl

/-- Closed form of the part_004 `newtonRaphson` run: when the engine
evaluates the expression as `F`, evaluates its symbolic derivative as `Fp`,
and the degeneracy guard never fires, each step divides the function value
by the evaluated symbolic derivative and follows the Newton orbit. -/
theorem newtonRaphsonAux_eq004 {E : Type} (evalE : E → ℚ → Except Unit ℚ)
    (derivE : E → Except Unit E) (expression : E) (p : ℕ)
    (F Fp : ℚ → ℚ) (d : E)
    (hd : derivE expression = .ok d)
    (hF : ∀ y, evalE expression y = .ok (F y))
    (hFp : ∀ y, evalE d y = .ok (Fp y)) (x0 : ℚ) :
    ∀ fuel m, (∀ j, j < fuel → ¬ |Fp (newtonOrbit F Fp x0 (m + j))| < tol) →
      newtonRaphsonAux evalE derivE expression p fuel (m + 1)
          (newtonOrbit F Fp x0 m) =
        .ok ((List.range fuel).map (fun k =>
          ⟨m + 1 + k, roundTo p (newtonOrbit F Fp x0 (m + 1 + k)),
            some (roundTo p (newtonErr F Fp x0 (m + k)))⟩)) := by
  intro fuel
  induction fuel with
  | zero => intro m _; rfl
  | succ fuel ih =>
    intro m hnd
    have hguard : ¬ |Fp (newtonOrbit F Fp x0 m)| < tol := by
      have := hnd 0 (Nat.succ_pos fuel)
      simpa using this
    rw [newtonRaphsonAux_unfold004]
    rw [hF (newtonOrbit F Fp x0 m), except_bind_ok, hd, except_bind_ok,
      hFp (newtonOrbit F Fp x0 m), except_bind_ok, if_neg hguard]
    have horb : newtonOrbit F Fp x0 m - F (newtonOrbit F Fp x0 m) /
        Fp (newtonOrbit F Fp x0 m) = newtonOrbit F Fp x0 (m + 1) := rfl
    rw [horb]
    rw [show newtonRaphsonAux evalE derivE expression p fuel (m + 1 + 1)
        (newtonOrbit F Fp x0 (m + 1)) = _ from ih (m + 1) (fun j hj => by
      have := hnd (j + 1) (by omega)
      have e : m + (j + 1) = m + 1 + j := by omega
      rwa [e] at this)]
    rw [except_bind_ok]
    rw [List.range_succ_eq_map, List.map_cons, List.map_map]
    show Except.ok _ = Except.ok _
    rw [Except.ok.injEq]
    congr 1
    apply List.map_congr_left
    intro k _
    show (⟨m + 1 + 1 + k, roundTo p (newtonOrbit F Fp x0 (m + 1 + 1 + k)),
        some (roundTo p (newtonErr F Fp x0 (m + 1 + k)))⟩ : IterationResult) = _
    have e1 : m + 1 + 1 + k = m + 1 + (k + 1) := by omega
    have e2 : m + 1 + k = m + (k + 1) := by omega
    rw [e1, e2]
    rfl

/-- Closed form of part_004 `newtonRaphson` from the start of the run. -/
theorem newtonRaphson_eq004 {E : Type} (evalE : E → ℚ → Except Unit ℚ)
    (derivE : E → Except Unit E) (expression : E) (x0 : ℚ) (n p : ℕ)
    (F Fp : ℚ → ℚ) (d : E)
    (hd : derivE expression = .ok d)
    (hF : ∀ y, evalE expression y = .ok (F y))
    (hFp : ∀ y, evalE d y = .ok (Fp y))
    (hnd : ∀ j, j < n → ¬ |Fp (newtonOrbit F Fp x0 j)| < tol) :
    newtonRaphson evalE derivE expression x0 n p =
      .ok ((List.range n).map (fun k =>
        ⟨k + 1, roundTo p (newtonOrbit F Fp x0 (k + 1)),
          some (roundTo p (newtonErr F Fp x0 k))⟩)) := by
  have h := newtonRaphsonAux_eq004 evalE derivE expression p F Fp d hd hF hFp x0 n 0
    (fun j hj => by simpa using hnd j hj)
  refine (show newtonRaphson evalE derivE expression x0 n p =
    newtonRaphsonAux evalE derivE expression p n (0 + 1) (newtonOrbit F Fp x0 0)
    from rfl).trans (h.trans ?_)
  rw [Except.ok.injEq]
  apply List.map_congr_left
  intro k _
  have e1 : 0 + 1 + k = k + 1 := by omega
  have e2 : 0 + k = k := by omega
  rw [e1, e2]

/-- Zeta-free unfolding of `approximateDerivativeRaw`. -/
theorem approximateDerivativeRaw_unfold (compileRes : Except Unit (ℚ → Except Unit ℚ))
    (derivE : Except Unit (ℚ → Except Unit ℚ)) (guessValue h : ℚ) (p : ℕ) :
    approximateDerivativeRaw compileRes derivE guessValue h p =
      compileRes >>= fun compiledExpr =>
      compiledExpr guessValue >>= fun fx =>
      compiledExpr (guessValue + h) >>= fun fxp =>
      compiledExpr (guessValue - h) >>= fun fxm =>
      derivE >>= fun node =>
      node guessValue >>= fun s =>
      .ok { forward := roundTo p ((fxp - fx) / h)
            backward := roundTo p ((fx - fxm) / h)
            centered := roundTo p ((fxp - fxm) / (2 * h))
            forwardError := calculateError ((fxp - fx) / h) (some s)
            backwardError := calculateError ((fx - fxm) / h) (some s)
            centeredError := calculateError ((fxp - fxm) / (2 * h)) (some s)
            symbolic := some (roundTo p s) } := rfl

/-- When every engine call succeeds, the part_004 `approximateDerivative`
body returns the record whose three error fields are the *raw* (unrounded)
`calculateError` values. -/
theorem approximateDerivativeRaw_ok004 (cf dcf : ℚ → Except Unit ℚ)
    (guessValue h : ℚ) (p : ℕ) (fx fxp fxm s : ℚ)
    (h1 : cf guessValue = .ok fx) (h2 : cf (guessValue + h) = .ok fxp)
    (h3 : cf (guessValue - h) = .ok fxm) (h4 : dcf guessValue = .ok s) :
    approximateDerivativeRaw (.ok cf) (.ok dcf) guessValue h p =
      .ok { forward := roundTo p ((fxp - fx) / h)
            backward := roundTo p ((fx - fxm) / h)
            centered := roundTo p ((fxp - fxm) / (2 * h))
            forwardError := calculateError ((fxp - fx) / h) (some s)
            backwardError := calculateError ((fx - fxm) / h) (some s)
            centeredError := calculateError ((fxp - fxm) / (2 * h)) (some s)
            symbolic := some (roundTo p s) } := by
  rw [approximateDerivativeRaw_unfold, except_bind_ok, h1, except_bind_ok,
    h2, except_bind_ok, h3, except_bind_ok, except_bind_ok, h4, except_bind_ok]

end Part004

namespace MathUtils

/-- Unfolding of `approximateDerivative` on a successfully compiled
expression, with the three guarded evaluations as match scrutinees. -/
theorem approximateDerivative_unfold (cf : ℚ → EvalOutcome)
    (dr : Option (ℚ → EvalOutcome)) (guessValue h : ℚ) (p : ℕ) :
    approximateDerivative (.ok cf) dr guessValue h p =
      (match safeEvaluate cf guessValue, safeEvaluate cf (guessValue + h),
          safeEvaluate cf (guessValue - h) with
      | some fx, some fxp, some fxm =>
        .inl { forward := roundTo p ((fxp - fx) / h)
               backward := roundTo p ((fx - fxm) / h)
               centered := roundTo p ((fxp - fxm) / (2 * h))
               forwardError := (calculateError ((fxp - fx) / h)
                 (dr.bind fun node => safeEvaluate node guessValue)).map (roundTo p)
               backwardError := (calculateError ((fx - fxm) / h)
                 (dr.bind fun node => safeEvaluate node guessValue)).map (roundTo p)
               centeredError := (calculateError ((fxp - fxm) / (2 * h))
                 (dr.bind fun node => safeEvaluate node guessValue)).map (roundTo p)
               symbolic := (dr.bind fun node =>
                 safeEvaluate node guessValue).map (roundTo p) }
      | _, _, _ =>
        .inr "Failed to evaluate expression at necessary points. Check expression syntax and ensure it is valid for the given x values.") :=
  rfl

/-- A failed `compile(expression)` is caught and surfaced as the generic
error value. -/
theorem approximateDerivative_compileFail (dr : Option (ℚ → EvalOutcome))
    (guessValue h : ℚ) (p : ℕ) :
    approximateDerivative (.error ()) dr guessValue h p =
      .inr "An error occurred during derivative calculation. Please check the expression and inputs." :=
  rfl

/-- When the three guarded evaluations succeed, `approximateDerivative`
returns the fully rounded record; the symbolic reference and the three
error fields are driven by `safeDerivative`/`safeEvaluate` and
`calculateError`. -/
theorem approximateDerivative_ok (cf : ℚ → EvalOutcome)
    (dr : Option (ℚ → EvalOutcome)) (guessValue h : ℚ) (p : ℕ)
    (fx fxp fxm : ℚ)
    (h1 : safeEvaluate cf guessValue = some fx)
    (h2 : safeEvaluate cf (guessValue + h) = some fxp)
    (h3 : safeEvaluate cf (guessValue - h) = some fxm) :
    approximateDerivative (.ok cf) dr guessValue h p =
      .inl { forward := roundTo p ((fxp - fx) / h)
             backward := roundTo p ((fx - fxm) / h)
             centered := roundTo p ((fxp - fxm) / (2 * h))
             forwardError := (calculateError ((fxp - fx) / h)
               (dr.bind fun node => safeEvaluate node guessValue)).map (roundTo p)
             backwardError := (calculateError ((fx - fxm) / h)
               (dr.bind fun node => safeEvaluate node guessValue)).map (roundTo p)
             centeredError := (calculateError ((fxp - fxm) / (2 * h))
               (dr.bind fun node => safeEvaluate node guessValue)).map (roundTo p)
             symbolic := (dr.bind fun node =>
               safeEvaluate node guessValue).map (roundTo p) } := by
  rw [approximateDerivative_unfold, h1, h2, h3]

/-- If any of the three guarded evaluations fails, `approximateDerivative`
returns the human-readable error value. -/
theorem approximateDerivative_evalFail (cf : ℚ → EvalOutcome)
    (dr : Option (ℚ → EvalOutcome)) (guessValue h : ℚ) (p : ℕ)
    (hfail : safeEvaluate cf guessValue = none ∨
      safeEvaluate cf (guessValue + h) = none ∨
      safeEvaluate cf (guessValue - h) = none) :
    approximateDerivative (.ok cf) dr guessValue h p =
      .inr "Failed to evaluate expression at necessary points. Check expression syntax and ensure it is valid for the given x values." := by
  rw [approximateDerivative_unfold]
  cases hA : safeEvaluate cf guessValue with
  | none => rfl
  | some fx =>
    cases hB : safeEvaluate cf (guessValue + h) with
    | none => rfl
    | some fxp =>
      cases hC : safeEvaluate cf (guessValue - h) with
      | none => rfl
      | some fxm =>
        exfalso
        rcases hfail with h1 | h1 | h1 <;> simp_all

/-- Every successfully returned `DerivativeResult` of the named variant
arises from the success branch: all three evaluations succeeded and every
field is the corresponding rounded value. -/
theorem approximateDerivative_inl_shape
    (compileRes : Except Unit (ℚ → EvalOutcome))
    (dr : Option (ℚ → EvalOutcome)) (guessValue h : ℚ) (p : ℕ)
    (r : DerivativeResult)
    (hr : approximateDerivative compileRes dr guessValue h p = .inl r) :
    ∃ cf fx fxp fxm, compileRes = .ok cf ∧
      safeEvaluate cf guessValue = some fx ∧
      safeEvaluate cf (guessValue + h) = some fxp ∧
      safeEvaluate cf (guessValue - h) = some fxm ∧
      r = { forward := roundTo p ((fxp - fx) / h)
            backward := roundTo p ((fx - fxm) / h)
            centered := roundTo p ((fxp - fxm) / (2 * h))
            forwardError := (calculateError ((fxp - fx) / h)
              (dr.bind fun node => safeEvaluate node guessValue)).map (roundTo p)
            backwardError := (calculateError ((fx - fxm) / h)
              (dr.bind fun node => safeEvaluate node guessValue)).map (roundTo p)
            centeredError := (calculateError ((fxp - fxm) / (2 * h))
              (dr.bind fun node => safeEvaluate node guessValue)).map (roundTo p)
            symbolic := (dr.bind fun node =>
              safeEvaluate node guessValue).map (roundTo p) } := by
  cases compileRes with
  | error e =>
    obtain rfl : e = () := rfl
    cases hr
  | ok cf =>
    cases hA : safeEvaluate cf guessValue with
    | none =>
      rw [approximateDerivative_evalFail cf dr guessValue h p (Or.inl hA)] at hr
      cases hr
    | some fx =>
      cases hB : safeEvaluate cf (guessValue + h) with
      | none =>
        rw [approximateDerivative_evalFail cf dr guessValue h p (Or.inr (Or.inl hB))] at hr
        cases hr
      | some fxp =>
        cases hC : safeEvaluate cf (guessValue - h) with
        | none =>
          rw [approximateDerivative_evalFail cf dr guessValue h p
            (Or.inr (Or.inr hC))] at hr
          cases hr
        | some fxm =>
          rw [approximateDerivative_ok cf dr guessValue h p fx fxp fxm hA hB hC] at hr
          exact ⟨cf, fx, fxp, fxm, rfl, hA, hB, hC, (Sum.inl.injEq _ _).mp hr.symm⟩

end MathUtils

/-! ## Claims -/

/-- **C9.** In `src/src/lib/math-utils.ts` the three root-finders hard-code
the target function (`G(x) = x - ln(x) + 1`, `f(x) = ln(x) - 1`,
`f'(x) = 1/x`, embedded as `MathUtils.G`, `MathUtils.f`,
`MathUtils.fPrime`) and never read their `targetValue` parameter: two calls
that differ only in `targetValue` return identical record sequences, for
every platform `log` function and all other arguments. -/
theorem c9_targetValue_never_read (log : ℚ → ℚ) (x0 g2 t1 t2 : ℚ) (n p : ℕ) :
    MathUtils.fixedPointIteration log x0 n t1 p =
        MathUtils.fixedPointIteration log x0 n t2 p ∧
    MathUtils.newtonRaphson log x0 n t1 p =
        MathUtils.newtonRaphson log x0 n t2 p ∧
    MathUtils.secantMethod log x0 g2 n t1 p =
        MathUtils.secantMethod log x0 g2 n t2 p :=
  ⟨rfl, rfl, rfl⟩

/-- **C10.** `approximateDerivative` in `src/src/lib/math-utils.ts` never
throws: for every compile outcome (including a throwing `compile`), every
evaluator behavior (including throwing and non-finite outcomes) and all
numeric arguments, it returns either a complete `DerivativeResult` or an
`{ error: string }` value — the embedding's total return type, with every
engine call guarded by `safeEvaluate`/`safeDerivative` or the enclosing
`try`/`catch`. -/
theorem c10_approximateDerivative_total
    (compileRes : Except Unit (ℚ → MathUtils.EvalOutcome))
    (dr : Option (ℚ → MathUtils.EvalOutcome)) (x h : ℚ) (p : ℕ) :
    (∃ r, MathUtils.approximateDerivative compileRes dr x h p = .inl r) ∨
    (∃ s, MathUtils.approximateDerivative compileRes dr x h p = .inr s) := by
  cases hv : MathUtils.approximateDerivative compileRes dr x h p with
  | inl r => exact Or.inl ⟨r, rfl⟩
  | inr s => exact Or.inr ⟨s, rfl⟩

/-- **C4.** Each root-finder returns a sequence whose `iteration` fields
form the contiguous run `1..k` with `k ≤ iterations`; `fixedPointIteration`
always has `k = iterations` exactly (both in the named variant and, on
success, in the part_004 variant). -/
theorem c4_iteration_contiguity (log : ℚ → ℚ) (x0 g2 t : ℚ) (n p : ℕ) :
    ((MathUtils.fixedPointIteration log x0 n t p).length = n ∧
      (MathUtils.fixedPointIteration log x0 n t p).map IterationResult.iteration =
        List.range' 1 n) ∧
    (∃ k, k ≤ n ∧
      (MathUtils.newtonRaphson log x0 n t p).map IterationResult.iteration =
        List.range' 1 k) ∧
    (∃ k, k ≤ n ∧
      (MathUtils.secantMethod log x0 g2 n t p).map IterationResult.iteration =
        List.range' 1 k) ∧
    (∀ (E : Type) (evalE : E → ℚ → Except Unit ℚ) (g : E)
        (rs : List IterationResult),
      Part004.fixedPointIteration evalE g x0 n p = .ok rs →
        rs.length = n ∧
          rs.map IterationResult.iteration = List.range' 1 n) := by
  have hrange : (List.range n).map (fun k => k + 1) = List.range' 1 n := by
    rw [List.range'_eq_map_range]
    apply List.map_congr_left
    intro a _
    omega
  refine ⟨⟨?_, ?_⟩, ?_, ?_, ?_⟩
  · rw [MathUtils.fixedPointIteration_eq]
    simp
  · rw [MathUtils.fixedPointIteration_eq, List.map_map, ← hrange]
    rfl
  · exact MathUtils.newtonRaphsonAux_iterations log p n 1 x0
  · exact MathUtils.secantAux_iterations log p n 1 x0 g2
  · intro E evalE g rs hok
    have hmap := Part004.fixedPointAux_ok_iterations evalE g p n 1 x0 false rs hok
    refine ⟨?_, hmap⟩
    have := congrArg List.length hmap
    simpa using this

/-- Witness for C4: a two-step fixed-point run of both variants.  The
part_004 run uses the concrete engine `MExpr.evalAt` with
`g(x) = x + 1`. -/
theorem c4_iteration_contiguity_witness :
    ((MathUtils.fixedPointIteration (fun _ => 0) 3 2 0 0).length = 2 ∧
      (MathUtils.fixedPointIteration (fun _ => 0) 3 2 0 0).map
        IterationResult.iteration = List.range' 1 2) ∧
    (([⟨1, 4, none⟩, ⟨2, 5, some 20⟩] : List IterationResult).length = 2 ∧
      ([⟨1, 4, none⟩, ⟨2, 5, some 20⟩] : List IterationResult).map
        IterationResult.iteration = List.range' 1 2) := by
  have hok : Part004.fixedPointIteration MExpr.evalAt (.add .var (.num 1)) 3 2 0 =
      .ok [⟨1, 4, none⟩, ⟨2, 5, some 20⟩] := by
    show Part004.fixedPointAux MExpr.evalAt (.add .var (.num 1)) 0 2 1 3 false = _
    rw [show Part004.fixedPointAux MExpr.evalAt (MExpr.add MExpr.var (MExpr.num 1)) 0 2 1 3 false =
      (MExpr.evalAt (.add .var (.num 1)) 3) >>= (fun nextX =>
        (Part004.fixedPointAux MExpr.evalAt (.add .var (.num 1)) 0 1 2 nextX true) >>= fun rest =>
          .ok (⟨1, roundTo 0 nextX,
            ((if false then some (|(nextX - 3) / nextX| * 100) else none)).map (roundTo 0)⟩ :: rest)) from rfl]
    rw [show MExpr.evalAt (.add .var (.num 1)) 3 = Except.ok 4 from by
      simp [MExpr.evalAt, except_bind_ok]
      norm_num]
    rw [except_bind_ok]
    rw [show Part004.fixedPointAux MExpr.evalAt (MExpr.add MExpr.var (MExpr.num 1)) 0 1 2 (4 : ℚ) true =
      (MExpr.evalAt (.add .var (.num 1)) 4) >>= (fun nextX =>
        (Part004.fixedPointAux MExpr.evalAt (.add .var (.num 1)) 0 0 3 nextX true) >>= fun rest =>
          .ok (⟨2, roundTo 0 nextX,
            ((if true then some (|(nextX - 4) / nextX| * 100) else none)).map (roundTo 0)⟩ :: rest)) from rfl]
    rw [show MExpr.evalAt (.add .var (.num 1)) 4 = Except.ok 5 from by
      simp [MExpr.evalAt, except_bind_ok]
      norm_num]
    rw [except_bind_ok]
    rw [show Part004.fixedPointAux MExpr.evalAt (MExpr.add MExpr.var (MExpr.num 1)) 0 0 3 (5 : ℚ) true =
      Except.ok [] from rfl]
    rw [except_bind_ok, except_bind_ok]
    have h4 : roundTo 0 (4 : ℚ) = 4 := by
      rw [roundTo, round_eq]
      norm_num
    have h5 : roundTo 0 (5 : ℚ) = 5 := by
      rw [roundTo, round_eq]
      norm_num
    have h20 : roundTo 0 (|((5 : ℚ) - 4) / 5| * 100) = 20 := by
      rw [roundTo, round_eq]
      rw [show |((5 : ℚ) - 4) / 5| = 1/5 from by norm_num [abs_of_pos]]
      norm_num
    simp [h4, h5, h20]
  exact ⟨(c4_iteration_contiguity (fun _ => 0) 3 0 0 2 0).1,
    (c4_iteration_contiguity (fun _ => 0) 3 0 0 2 0).2.2.2
      MExpr MExpr.evalAt (.add .var (.num 1)) _ hok⟩

/-- Rounding an integer changes nothing. -/
theorem roundTo_intCast (p : ℕ) (z : ℤ) : roundTo p (z : ℚ) = z := by
  rw [roundTo]
  have h : ((z : ℚ) * 10 ^ p) = ((z * 10 ^ p : ℤ) : ℚ) := by push_cast; ring
  rw [h, round_intCast]
  push_cast
  rw [mul_div_assoc, div_self (by positivity : ((10 : ℚ) ^ p) ≠ 0), mul_one]

/-- **C8.** `fixedPointIteration` gives the first record a `null`
`relativeError` and every later record a computed one, while
`newtonRaphson` computes `|x_(k+1) - x_k| / |x_(k+1)| * 100` on every
iterating step, the first included (the second conjunct quantifies over
runs in which the degeneracy guard never fires, i.e. every step iterates;
`MathUtils.nrErr` is that error formula on the unrounded orbit). -/
theorem c8_relative_error_convention :
    (∀ (log : ℚ → ℚ) (x0 t : ℚ) (n p k : ℕ), k < n →
      (MathUtils.fixedPointIteration log x0 n t p)[k]? =
        some ⟨k + 1, roundTo p (MathUtils.fpOrbit log x0 (k + 1)),
          if k = 0 then none else some (roundTo p (MathUtils.fpErr log x0 k))⟩) ∧
    (∀ (log : ℚ → ℚ) (x0 t : ℚ) (n p : ℕ),
      (∀ j, j < n → ¬ |MathUtils.fPrime (MathUtils.nrOrbit log x0 j)| < tol) →
      ∀ k, k < n →
      (MathUtils.newtonRaphson log x0 n t p)[k]? =
        some ⟨k + 1, roundTo p (MathUtils.nrOrbit log x0 (k + 1)),
          some (roundTo p (MathUtils.nrErr log x0 k))⟩) := by
  constructor
  · intro log x0 t n p k hk
    rw [MathUtils.fixedPointIteration_eq]
    simp [List.getElem?_map, List.getElem?_range, hk]
  · intro log x0 t n p hnd k hk
    rw [MathUtils.newtonRaphson_eq log x0 n t p hnd]
    simp [List.getElem?_map, List.getElem?_range, hk]

/-- Witness for C8: with `log = 0` the fixed-point map is `x + 1` and the
Newton map doubles `x`; a concrete run shows the `null`-first /
computed-afterwards pattern and Newton computing the error on step 1. -/
theorem c8_relative_error_convention_witness :
    (MathUtils.fixedPointIteration (fun _ => 0) 3 2 0 0)[0]? = some ⟨1, 4, none⟩ ∧
    (MathUtils.fixedPointIteration (fun _ => 0) 3 2 0 0)[1]? = some ⟨2, 5, some 20⟩ ∧
    (MathUtils.newtonRaphson (fun _ => 0) 1 1 0 0)[0]? = some ⟨1, 2, some 50⟩ := by
  have h0 := c8_relative_error_convention.1 (fun _ => 0) 3 0 2 0 0 (by omega)
  have h1 := c8_relative_error_convention.1 (fun _ => 0) 3 0 2 0 1 (by omega)
  have hnd : ∀ j, j < 1 → ¬ |MathUtils.fPrime (MathUtils.nrOrbit (fun _ => 0) 1 j)| < tol := by
    intro j hj
    obtain rfl : j = 0 := by omega
    show ¬ |MathUtils.fPrime (1 : ℚ)| < tol
    rw [MathUtils.fPrime, tol]
    norm_num
  have h2 := c8_relative_error_convention.2 (fun _ => 0) 1 0 1 0 hnd 0 (by omega)
  have horb1 : MathUtils.fpOrbit (fun _ => 0) 3 1 = 4 := by
    show MathUtils.G (fun _ => 0) 3 = 4
    rw [MathUtils.G]
    norm_num
  have horb2 : MathUtils.fpOrbit (fun _ => 0) 3 2 = 5 := by
    show MathUtils.G (fun _ => 0) (MathUtils.fpOrbit (fun _ => 0) 3 1) = 5
    rw [horb1, MathUtils.G]
    norm_num
  have herr : MathUtils.fpErr (fun _ => 0) 3 1 = 20 := by
    rw [MathUtils.fpErr, horb1, horb2]
    rw [show |((5 : ℚ) - 4) / 5| = 1/5 from by norm_num [abs_of_pos]]
    norm_num
  have hnorb1 : MathUtils.nrOrbit (fun _ => 0) 1 1 = 2 := by
    show (1 : ℚ) - MathUtils.f (fun _ => 0) 1 / MathUtils.fPrime 1 = 2
    rw [MathUtils.f, MathUtils.fPrime]
    norm_num
  have hnerr : MathUtils.nrErr (fun _ => 0) 1 0 = 50 := by
    rw [MathUtils.nrErr, hnorb1]
    show |(2 - MathUtils.nrOrbit (fun _ => 0) 1 0) / 2| * 100 = 50
    rw [show MathUtils.nrOrbit (fun _ => 0) 1 0 = 1 from rfl]
    rw [show |((2 : ℚ) - 1) / 2| = 1/2 from by norm_num [abs_of_pos]]
    norm_num
  have h4 : roundTo 0 (4 : ℚ) = 4 := by simpa using roundTo_intCast 0 4
  have h5 : roundTo 0 (5 : ℚ) = 5 := by simpa using roundTo_intCast 0 5
  have h20 : roundTo 0 (20 : ℚ) = 20 := by simpa using roundTo_intCast 0 20
  have hr2 : roundTo 0 (2 : ℚ) = 2 := by simpa using roundTo_intCast 0 2
  have h50 : roundTo 0 (50 : ℚ) = 50 := by simpa using roundTo_intCast 0 50
  refine ⟨?_, ?_, ?_⟩
  · rw [h0, horb1]
    simp [h4]
  · rw [h1, horb2, herr]
    simp [h5, h20]
  · rw [h2, hnorb1, hnerr]
    simp [hr2, h50]

/-- **C3.** When `|f'(x_k)| < 1e-10` first holds at 0-based step `k`,
`newtonRaphson` stops at that step: it returns, as an ordinary list (no
exception — the embedded function is total), the records of the `k`
completed steps together with the record pushed at the stopping step (the
current iterate with a `null` error), so nothing beyond step `k+1` is
produced; `secantMethod` behaves identically when
`|f(x1) - f(x0)| < 1e-10` first holds at step `k`. -/
theorem c3_degeneracy_graceful_stop :
    (∀ (log : ℚ → ℚ) (x0 t : ℚ) (n p k : ℕ),
      (∀ j, j < k → ¬ |MathUtils.fPrime (MathUtils.nrOrbit log x0 j)| < tol) →
      |MathUtils.fPrime (MathUtils.nrOrbit log x0 k)| < tol → k < n →
      MathUtils.newtonRaphson log x0 n t p =
        ((List.range k).map fun j =>
          ⟨j + 1, roundTo p (MathUtils.nrOrbit log x0 (j + 1)),
            some (roundTo p (MathUtils.nrErr log x0 j))⟩) ++
          [⟨k + 1, MathUtils.nrOrbit log x0 k, none⟩]) ∧
    (∀ (log : ℚ → ℚ) (g1 g2 t : ℚ) (n p k : ℕ),
      (∀ j, j < k → ¬ MathUtils.secDegen log g1 g2 j) →
      MathUtils.secDegen log g1 g2 k → k < n →
      MathUtils.secantMethod log g1 g2 n t p =
        ((List.range k).map fun j =>
          ⟨j + 1, roundTo p ((MathUtils.secOrbit log g1 g2 (j + 1)).2),
            some (roundTo p (MathUtils.secErr log g1 g2 j))⟩) ++
          [⟨k + 1, (MathUtils.secOrbit log g1 g2 k).2, none⟩]) := by
  constructor
  · intro log x0 t n p k hj hdeg hk
    have h := MathUtils.newtonRaphsonAux_degen log p x0 k n 0 hk
      (fun j hjk => by simpa using hj j hjk) (by simpa using hdeg)
    refine (show MathUtils.newtonRaphson log x0 n t p =
      MathUtils.newtonRaphsonAux log p n (0 + 1) (MathUtils.nrOrbit log x0 0)
      from rfl).trans (h.trans ?_)
    congr 1
    · apply List.map_congr_left
      intro j _
      have e1 : 0 + 1 + j = j + 1 := by omega
      have e2 : 0 + j = j := by omega
      rw [e1, e2]
    · have e1 : 0 + 1 + k = k + 1 := by omega
      have e2 : 0 + k = k := by omega
      rw [e1, e2]
  · intro log g1 g2 t n p k hj hdeg hk
    have h := MathUtils.secantAux_degen log p g1 g2 k n 0 hk
      (fun j hjk => by simpa using hj j hjk) (by simpa using hdeg)
    refine (show MathUtils.secantMethod log g1 g2 n t p =
      MathUtils.secantAux log p n (0 + 1) (MathUtils.secOrbit log g1 g2 0).1
        (MathUtils.secOrbit log g1 g2 0).2
      from rfl).trans (h.trans ?_)
    congr 1
    · apply List.map_congr_left
      intro j _
      have e1 : 0 + 1 + j = j + 1 := by omega
      have e2 : 0 + j = j := by omega
      rw [e1, e2]
    · have e1 : 0 + 1 + k = k + 1 := by omega
      have e2 : 0 + k = k := by omega
      rw [e1, e2]

/-- Witness for C3: with `log = 0`, `x0 = 10^11` makes `|f'(x0)| = 10^(-11)`
degenerate at the very first Newton step, and any two secant guesses give
`f(x1) - f(x0) = 0`, degenerate at the first secant step; both runs return
the single stopping record. -/
theorem c3_degeneracy_graceful_stop_witness :
    MathUtils.newtonRaphson (fun _ => 0) (10 ^ 11) 2 0 0 = [⟨1, 10 ^ 11, none⟩] ∧
    MathUtils.secantMethod (fun _ => 0) 1 2 3 0 0 = [⟨1, 2, none⟩] := by
  constructor
  · have hdeg : |MathUtils.fPrime (MathUtils.nrOrbit (fun _ => 0) (10 ^ 11) 0)| < tol := by
      show |MathUtils.fPrime ((10 : ℚ) ^ 11)| < tol
      rw [MathUtils.fPrime, tol]
      rw [abs_of_pos (by positivity)]
      norm_num
    have h := c3_degeneracy_graceful_stop.1 (fun _ => 0) (10 ^ 11) 0 2 0 0
      (fun j hj => absurd hj (by omega)) hdeg (by omega)
    simpa using h
  · have hdeg : MathUtils.secDegen (fun _ => 0) 1 2 0 := by
      show |MathUtils.f (fun _ => 0) 2 - MathUtils.f (fun _ => 0) 1| < tol
      rw [MathUtils.f, MathUtils.f, tol]
      norm_num
    have h := c3_degeneracy_graceful_stop.2 (fun _ => 0) 1 2 0 3 0 0
      (fun j hj => absurd hj (by omega)) hdeg (by omega)
    simpa using h

/-- **C7 counterexample.** With `precision = 2` and initial guess
`20000000000.12345`, `|f'(x0)| = 1/x0 < 1e-10`, so `newtonRaphson` pushes
its degenerate-stop record with `approximation = x0` **unrounded**: the
stored field has five decimal digits, more than `precision = 2`, refuting
the claim that every stored numeric field is rounded. -/
theorem c7_unrounded_sentinel_counterexample :
    MathUtils.newtonRaphson (fun _ => 0) (20000000000 + 12345 / 100000) 1 0 2 =
      [⟨1, 20000000000 + 12345 / 100000, none⟩] ∧
    ¬ hasDecimals 2 (20000000000 + 12345 / 100000 : ℚ) := by
  constructor
  · have hdeg : |MathUtils.fPrime (20000000000 + 12345 / 100000 : ℚ)| < tol := by
      rw [MathUtils.fPrime, tol, abs_of_pos (by positivity)]
      norm_num
    rw [show MathUtils.newtonRaphson (fun _ => 0) (20000000000 + 12345 / 100000) 1 0 2 =
        MathUtils.newtonRaphsonAux (fun _ => 0) 2 1 1 (20000000000 + 12345 / 100000)
        from rfl,
      MathUtils.newtonRaphsonAux_unfold, if_pos hdeg]
  · unfold hasDecimals
    norm_num

/-- **C7 amended.** Every numeric field stored by the named variant is
rounded to `precision` digits — except the final record appended by
`newtonRaphson`/`secantMethod` on a degenerate stop, which stores the
current iterate unrounded and carries a `null` error, and occurs only in
last position — and in the part_004 variant `approximateDerivative` stores
its three error fields as raw `calculateError` values (unrounded).  The
iterate carried into the next loop step is the full-precision unrounded
orbit value (first conjunct: the whole run is the pointwise rounding of
the unrounded orbit). -/
theorem c7_rounding_amended :
    (∀ (log : ℚ → ℚ) (x0 t : ℚ) (n p : ℕ),
      MathUtils.fixedPointIteration log x0 n t p =
        (List.range n).map (fun k =>
          ⟨k + 1, roundTo p (MathUtils.fpOrbit log x0 (k + 1)),
            if k = 0 then none else some (roundTo p (MathUtils.fpErr log x0 k))⟩)) ∧
    (∀ (log : ℚ → ℚ) (x0 t : ℚ) (n p : ℕ) (r : IterationResult),
      r ∈ MathUtils.newtonRaphson log x0 n t p →
        ∀ e, r.relativeError = some e →
          hasDecimals p r.approximation ∧ hasDecimals p e) ∧
    (∀ (log : ℚ → ℚ) (x0 t : ℚ) (n p j : ℕ) (r : IterationResult),
      (MathUtils.newtonRaphson log x0 n t p)[j]? = some r →
        r.relativeError = none →
          j + 1 = (MathUtils.newtonRaphson log x0 n t p).length) ∧
    (∀ (log : ℚ → ℚ) (g1 g2 t : ℚ) (n p : ℕ) (r : IterationResult),
      r ∈ MathUtils.secantMethod log g1 g2 n t p →
        ∀ e, r.relativeError = some e →
          hasDecimals p r.approximation ∧ hasDecimals p e) ∧
    (∀ (log : ℚ → ℚ) (g1 g2 t : ℚ) (n p j : ℕ) (r : IterationResult),
      (MathUtils.secantMethod log g1 g2 n t p)[j]? = some r →
        r.relativeError = none →
          j + 1 = (MathUtils.secantMethod log g1 g2 n t p).length) ∧
    (∀ (compileRes : Except Unit (ℚ → MathUtils.EvalOutcome))
        (dr : Option (ℚ → MathUtils.EvalOutcome)) (x h : ℚ) (p : ℕ)
        (r : DerivativeResult),
      MathUtils.approximateDerivative compileRes dr x h p = .inl r →
        hasDecimals p r.forward ∧ hasDecimals p r.backward ∧
        hasDecimals p r.centered ∧
        (∀ e, r.forwardError = some e → hasDecimals p e) ∧
        (∀ e, r.backwardError = some e → hasDecimals p e) ∧
        (∀ e, r.centeredError = some e → hasDecimals p e) ∧
        (∀ sv, r.symbolic = some sv → hasDecimals p sv)) ∧
    (∀ (cf dcf : ℚ → Except Unit ℚ) (x h : ℚ) (p : ℕ) (fx fxp fxm sv : ℚ),
      cf x = .ok fx → cf (x + h) = .ok fxp → cf (x - h) = .ok fxm →
      dcf x = .ok sv →
      Part004.approximateDerivativeRaw (.ok cf) (.ok dcf) x h p =
        .ok { forward := roundTo p ((fxp - fx) / h)
              backward := roundTo p ((fx - fxm) / h)
              centered := roundTo p ((fxp - fxm) / (2 * h))
              forwardError := calculateError ((fxp - fx) / h) (some sv)
              backwardError := calculateError ((fx - fxm) / h) (some sv)
              centeredError := calculateError ((fxp - fxm) / (2 * h)) (some sv)
              symbolic := some (roundTo p sv) }) := by
  refine ⟨?_, ?_, ?_, ?_, ?_, ?_, ?_⟩
  · intro log x0 t n p
    exact MathUtils.fixedPointIteration_eq log x0 n t p
  · intro log x0 t n p r hr e he
    exact MathUtils.newtonRaphsonAux_rounded log p n 1 x0 r hr e he
  · intro log x0 t n p j r hr hnone
    exact MathUtils.newtonRaphsonAux_none_last log p n 1 x0 j r hr hnone
  · intro log g1 g2 t n p r hr e he
    exact MathUtils.secantAux_rounded log p n 1 g1 g2 r hr e he
  · intro log g1 g2 t n p j r hr hnone
    exact MathUtils.secantAux_none_last log p n 1 g1 g2 j r hr hnone
  · intro compileRes dr x h p r hr
    obtain ⟨cf, fx, fxp, fxm, rfl, hA, hB, hC, rfl⟩ :=
      MathUtils.approximateDerivative_inl_shape compileRes dr x h p r hr
    refine ⟨hasDecimals_roundTo p _, hasDecimals_roundTo p _,
      hasDecimals_roundTo p _, ?_, ?_, ?_, ?_⟩ <;>
    · intro e he
      obtain ⟨y, hy, rfl⟩ := Option.map_eq_some'.mp he
      exact hasDecimals_roundTo p y
  · intro cf dcf x h p fx fxp fxm sv h1 h2 h3 h4
    exact Part004.approximateDerivativeRaw_ok004 cf dcf x h p fx fxp fxm sv h1 h2 h3 h4

/-- Witness for C7 amended: a non-degenerate Newton record has both fields
rounded, and a concrete part_004 derivative run stores the raw error
`400/3` (which a rounded field could never hold at `precision = 2`). -/
theorem c7_rounding_amended_witness :
    (hasDecimals 0 (2 : ℚ) ∧ hasDecimals 0 (50 : ℚ)) ∧
    Part004.approximateDerivativeRaw
        (.ok (fun q => .ok (q * q * q))) (.ok (fun q => .ok (3 * (q * q)))) 1 1 2 =
      .ok ⟨7, 1, 4, some (400 / 3), some (200 / 3), some (100 / 3), some 3⟩ := by
  constructor
  · have hstep : MathUtils.nrStep (fun _ => 0) 1 = 2 := by
      rw [MathUtils.nrStep, MathUtils.f, MathUtils.fPrime]
      norm_num
    have hrel : MathUtils.nrRel (fun _ => 0) 1 = 50 := by
      rw [MathUtils.nrRel, hstep]
      rw [show |((2 : ℚ) - 1) / 2| = 1 / 2 from by norm_num [abs_of_pos]]
      norm_num
    have hguard : ¬ |MathUtils.fPrime (1 : ℚ)| < tol := by
      rw [MathUtils.fPrime, tol]
      norm_num
    have hr2 : roundTo 0 (2 : ℚ) = 2 := by simpa using roundTo_intCast 0 2
    have h50 : roundTo 0 (50 : ℚ) = 50 := by simpa using roundTo_intCast 0 50
    have hlist : MathUtils.newtonRaphson (fun _ => 0) 1 1 0 0 = [⟨1, 2, some 50⟩] := by
      rw [show MathUtils.newtonRaphson (fun _ => 0) 1 1 0 0 =
          MathUtils.newtonRaphsonAux (fun _ => 0) 0 1 1 1 from rfl,
        MathUtils.newtonRaphsonAux_unfold, if_neg hguard, hstep, hrel, hr2, h50]
      rfl
    have hmem : (⟨1, 2, some 50⟩ : IterationResult) ∈
        MathUtils.newtonRaphson (fun _ => 0) 1 1 0 0 := by
      rw [hlist]
      exact List.mem_singleton.mpr rfl
    exact c7_rounding_amended.2.1 (fun _ => 0) 1 0 1 0 ⟨1, 2, some 50⟩ hmem 50 rfl
  · have h1 : (fun q : ℚ => Except.ok (ε := Unit) (q * q * q)) 1 = .ok 1 := by
      norm_num
    have h2 : (fun q : ℚ => Except.ok (ε := Unit) (q * q * q)) (1 + 1) = .ok 8 := by
      norm_num
    have h3 : (fun q : ℚ => Except.ok (ε := Unit) (q * q * q)) (1 - 1) = .ok 0 := by
      norm_num
    have h4 : (fun q : ℚ => Except.ok (ε := Unit) (3 * (q * q))) 1 = .ok 3 := by
      norm_num
    have h := c7_rounding_amended.2.2.2.2.2.2
      (fun q => .ok (q * q * q)) (fun q => .ok (3 * (q * q))) 1 1 2 1 8 0 3 h1 h2 h3 h4
    rw [h]
    have hfe : calculateError (((8 : ℚ) - 1) / 1) (some 3) = some (400 / 3) := by
      rw [calculateError]
      rw [if_neg (by rw [tol]; norm_num)]
      rw [show |(((8 : ℚ) - 1) / 1 - 3) / 3| = 4 / 3 from by norm_num [abs_of_pos]]
      norm_num
    have hbe : calculateError (((1 : ℚ) - 0) / 1) (some 3) = some (200 / 3) := by
      rw [calculateError]
      rw [if_neg (by rw [tol]; norm_num)]
      rw [show |(((1 : ℚ) - 0) / 1 - 3) / 3| = 2 / 3 from by norm_num [abs_of_neg]]
      norm_num
    have hce : calculateError (((8 : ℚ) - 0) / (2 * 1)) (some 3) = some (100 / 3) := by
      rw [calculateError]
      rw [if_neg (by rw [tol]; norm_num)]
      rw [show |(((8 : ℚ) - 0) / (2 * 1) - 3) / 3| = 1 / 3 from by norm_num [abs_of_pos]]
      norm_num
    have hf : roundTo 2 (((8 : ℚ) - 1) / 1) = 7 := by
      rw [show ((8 : ℚ) - 1) / 1 = ((7 : ℤ) : ℚ) from by norm_num]
      simpa using roundTo_intCast 2 7
    have hb : roundTo 2 (((1 : ℚ) - 0) / 1) = 1 := by
      rw [show ((1 : ℚ) - 0) / 1 = ((1 : ℤ) : ℚ) from by norm_num]
      simpa using roundTo_intCast 2 1
    have hc : roundTo 2 (((8 : ℚ) - 0) / (2 * 1)) = 4 := by
      rw [show ((8 : ℚ) - 0) / (2 * 1) = ((4 : ℤ) : ℚ) from by norm_num]
      simpa using roundTo_intCast 2 4
    have hs : roundTo 2 (3 : ℚ) = 3 := by simpa using roundTo_intCast 2 3
    rw [hfe, hbe, hce, hf, hb, hc, hs]

/-- **C5.** If evaluating `f` at any of `x`, `x+h`, `x-h` fails — the
engine throws (domain error) or returns a non-finite value, both of which
`safeEvaluate` maps to `null` (third conjunct), or `compile` throws (parse
error, second conjunct) — `approximateDerivative` returns the
human-readable `{ error: ... }` value and no `DerivativeResult` (so no
partial finite-difference values) is produced. -/
theorem c5_derivative_eval_failure :
    (∀ (cf : ℚ → MathUtils.EvalOutcome) (dr : Option (ℚ → MathUtils.EvalOutcome))
        (x h : ℚ) (p : ℕ),
      (MathUtils.safeEvaluate cf x = none ∨
        MathUtils.safeEvaluate cf (x + h) = none ∨
        MathUtils.safeEvaluate cf (x - h) = none) →
      MathUtils.approximateDerivative (.ok cf) dr x h p =
        .inr "Failed to evaluate expression at necessary points. Check expression syntax and ensure it is valid for the given x values.") ∧
    (∀ (dr : Option (ℚ → MathUtils.EvalOutcome)) (x h : ℚ) (p : ℕ),
      MathUtils.approximateDerivative (.error ()) dr x h p =
        .inr "An error occurred during derivative calculation. Please check the expression and inputs.") ∧
    (∀ (cf : ℚ → MathUtils.EvalOutcome) (y : ℚ),
      (cf y = .thrown ∨ cf y = .nonFinite) → MathUtils.safeEvaluate cf y = none) := by
  refine ⟨?_, ?_, ?_⟩
  · intro cf dr x h p hfail
    exact MathUtils.approximateDerivative_evalFail cf dr x h p hfail
  · intro dr x h p
    exact MathUtils.approximateDerivative_compileFail dr x h p
  · intro cf y hy
    unfold MathUtils.safeEvaluate
    rcases hy with hy | hy <;> rw [hy]

/-- Witness for C5, matching spec Scenario 5: a `sqrt`-like engine that
throws for negative inputs, evaluated at `x = 0.005`, `h = 0.01`; the
evaluation at `x - h < 0` fails and the whole call returns the error
value. -/
theorem c5_derivative_eval_failure_witness :
    MathUtils.approximateDerivative
        (.ok (fun q => if q < 0 then .thrown else .num q)) none
        (1 / 200) (1 / 100) 6 =
      .inr "Failed to evaluate expression at necessary points. Check expression syntax and ensure it is valid for the given x values." := by
  apply c5_derivative_eval_failure.1
  refine Or.inr (Or.inr ?_)
  norm_num [MathUtils.safeEvaluate]

/-- **C6.** For every successful `DerivativeResult`: a `null` `symbolic`
forces all three error fields `null` (first conjunct); and each error
field is (the rounding of) `|approx - symbolic| / |symbolic| * 100`,
computed only when the raw symbolic value satisfies `|symbolic| ≥ 1e-10`
and `null` otherwise — the second conjunct exhibits the fields as
`calculateError` values, and the last two conjuncts state `calculateError`
itself. -/
theorem c6_derivative_error_fields :
    (∀ (compileRes : Except Unit (ℚ → MathUtils.EvalOutcome))
        (dr : Option (ℚ → MathUtils.EvalOutcome)) (x h : ℚ) (p : ℕ)
        (r : DerivativeResult),
      MathUtils.approximateDerivative compileRes dr x h p = .inl r →
        r.symbolic = none →
          r.forwardError = none ∧ r.backwardError = none ∧
            r.centeredError = none) ∧
    (∀ (cf : ℚ → MathUtils.EvalOutcome) (dr : Option (ℚ → MathUtils.EvalOutcome))
        (x h : ℚ) (p : ℕ) (fx fxp fxm : ℚ),
      MathUtils.safeEvaluate cf x = some fx →
      MathUtils.safeEvaluate cf (x + h) = some fxp →
      MathUtils.safeEvaluate cf (x - h) = some fxm →
      MathUtils.approximateDerivative (.ok cf) dr x h p =
        .inl { forward := roundTo p ((fxp - fx) / h)
               backward := roundTo p ((fx - fxm) / h)
               centered := roundTo p ((fxp - fxm) / (2 * h))
               forwardError := (calculateError ((fxp - fx) / h)
                 (dr.bind fun node => MathUtils.safeEvaluate node x)).map (roundTo p)
               backwardError := (calculateError ((fx - fxm) / h)
                 (dr.bind fun node => MathUtils.safeEvaluate node x)).map (roundTo p)
               centeredError := (calculateError ((fxp - fxm) / (2 * h))
                 (dr.bind fun node => MathUtils.safeEvaluate node x)).map (roundTo p)
               symbolic := (dr.bind fun node =>
                 MathUtils.safeEvaluate node x).map (roundTo p) }) ∧
    (∀ a ex : ℚ, calculateError a (some ex) =
      if |ex| < tol then none else some (|(a - ex) / ex| * 100)) ∧
    (∀ a : ℚ, calculateError a none = none) := by
  refine ⟨?_, ?_, fun a ex => rfl, fun a => rfl⟩
  · intro compileRes dr x h p r hr hsym
    obtain ⟨cf, fx, fxp, fxm, rfl, hA, hB, hC, rfl⟩ :=
      MathUtils.approximateDerivative_inl_shape compileRes dr x h p r hr
    have hnone : (dr.bind fun node => MathUtils.safeEvaluate node x) = none :=
      Option.map_eq_none'.mp hsym
    rw [show DerivativeResult.forwardError _ =
      (calculateError ((fxp - fx) / h)
        (dr.bind fun node => MathUtils.safeEvaluate node x)).map (roundTo p) from rfl]
    rw [show DerivativeResult.backwardError _ =
      (calculateError ((fx - fxm) / h)
        (dr.bind fun node => MathUtils.safeEvaluate node x)).map (roundTo p) from rfl]
    rw [show DerivativeResult.centeredError _ =
      (calculateError ((fxp - fxm) / (2 * h))
        (dr.bind fun node => MathUtils.safeEvaluate node x)).map (roundTo p) from rfl]
    rw [hnone]
    exact ⟨rfl, rfl, rfl⟩
  · intro cf dr x h p fx fxp fxm hA hB hC
    exact MathUtils.approximateDerivative_ok cf dr x h p fx fxp fxm hA hB hC

/-- Witness for C6 on `f(x) = x^2` at `x = 1` with `h = 1`: the symbolic
derivative evaluates to `2`, the forward and backward errors are `50`, the
centered error is `0`. -/
theorem c6_derivative_error_fields_witness :
    MathUtils.approximateDerivative (.ok (fun q => .num (q * q)))
        (some (fun q => .num (2 * q))) 1 1 0 =
      .inl ⟨3, 1, 2, some 50, some 50, some 0, some 2⟩ := by
  have hA : MathUtils.safeEvaluate (fun q => MathUtils.EvalOutcome.num (q * q)) 1 =
      some 1 := by
    unfold MathUtils.safeEvaluate
    norm_num
  have hB : MathUtils.safeEvaluate (fun q => MathUtils.EvalOutcome.num (q * q)) (1 + 1) =
      some 4 := by
    unfold MathUtils.safeEvaluate
    norm_num
  have hC : MathUtils.safeEvaluate (fun q => MathUtils.EvalOutcome.num (q * q)) (1 - 1) =
      some 0 := by
    unfold MathUtils.safeEvaluate
    norm_num
  have h := c6_derivative_error_fields.2.1 (fun q => .num (q * q))
    (some (fun q => .num (2 * q))) 1 1 0 1 4 0 hA hB hC
  rw [h]
  have hbind : ((some (fun q : ℚ => MathUtils.EvalOutcome.num (2 * q))).bind
      fun node => MathUtils.safeEvaluate node 1) = some 2 := by
    unfold MathUtils.safeEvaluate
    norm_num
  rw [hbind]
  have hfe : calculateError (((4 : ℚ) - 1) / 1) (some 2) = some 50 := by
    rw [calculateError, if_neg (by rw [tol]; norm_num)]
    rw [show |(((4 : ℚ) - 1) / 1 - 2) / 2| = 1 / 2 from by norm_num [abs_of_pos]]
    norm_num
  have hbe : calculateError (((1 : ℚ) - 0) / 1) (some 2) = some 50 := by
    rw [calculateError, if_neg (by rw [tol]; norm_num)]
    rw [show |(((1 : ℚ) - 0) / 1 - 2) / 2| = 1 / 2 from by norm_num [abs_of_neg]]
    norm_num
  have hce : calculateError (((4 : ℚ) - 0) / (2 * 1)) (some 2) = some 0 := by
    rw [calculateError, if_neg (by rw [tol]; norm_num)]
    rw [show |(((4 : ℚ) - 0) / (2 * 1) - 2) / 2| = 0 from by norm_num]
    norm_num
  rw [hfe, hbe, hce]
  have h3 : roundTo 0 (((4 : ℚ) - 1) / 1) = 3 := by
    rw [show ((4 : ℚ) - 1) / 1 = ((3 : ℤ) : ℚ) from by norm_num]
    simpa using roundTo_intCast 0 3
  have h1 : roundTo 0 (((1 : ℚ) - 0) / 1) = 1 := by
    rw [show ((1 : ℚ) - 0) / 1 = ((1 : ℤ) : ℚ) from by norm_num]
    simpa using roundTo_intCast 0 1
  have h2 : roundTo 0 (((4 : ℚ) - 0) / (2 * 1)) = 2 := by
    rw [show ((4 : ℚ) - 0) / (2 * 1) = ((2 : ℤ) : ℚ) from by norm_num]
    simpa using roundTo_intCast 0 2
  have h50 : roundTo 0 (50 : ℚ) = 50 := by simpa using roundTo_intCast 0 50
  have h00 : roundTo 0 (0 : ℚ) = 0 := by simpa using roundTo_intCast 0 0
  have hs2 : roundTo 0 (2 : ℚ) = 2 := by simpa using roundTo_intCast 0 2
  rw [h3, h1, h2]
  simp [h50, h00, hs2]

/-- **C1.** For every expression, initial guess, iteration count and
precision, the part_004 `newtonRaphson` computes the derivative by
symbolic differentiation of the given expression followed by evaluation at
the current iterate — the hypotheses say the engine evaluates the
expression as `F` and evaluates the symbolically differentiated node
`d = derivE expression` as `Fp`; no finite difference is involved — and
produces `x_(k+1) = x_k - f(x_k) / f'(x_k)` (first conjunct: the orbit
equation; second: the run is the rounded orbit). -/
theorem c1_newton_symbolic_derivative {E : Type} (evalE : E → ℚ → Except Unit ℚ)
    (derivE : E → Except Unit E) (expression : E) (x0 : ℚ) (n p : ℕ)
    (F Fp : ℚ → ℚ) (d : E)
    (hd : derivE expression = .ok d)
    (hF : ∀ y, evalE expression y = .ok (F y))
    (hFp : ∀ y, evalE d y = .ok (Fp y))
    (hnd : ∀ j, j < n → ¬ |Fp (Part004.newtonOrbit F Fp x0 j)| < tol) :
    (∀ k, Part004.newtonOrbit F Fp x0 (k + 1) =
      Part004.newtonOrbit F Fp x0 k -
        F (Part004.newtonOrbit F Fp x0 k) / Fp (Part004.newtonOrbit F Fp x0 k)) ∧
    Part004.newtonRaphson evalE derivE expression x0 n p =
      .ok ((List.range n).map fun k =>
        ⟨k + 1, roundTo p (Part004.newtonOrbit F Fp x0 (k + 1)),
          some (roundTo p (Part004.newtonErr F Fp x0 k))⟩) :=
  ⟨fun k => rfl,
    Part004.newtonRaphson_eq004 evalE derivE expression x0 n p F Fp d hd hF hFp hnd⟩

/-- Witness for C1 on the concrete engine: `f(x) = x * x`, whose symbolic
derivative node evaluates to `2x`; one Newton step from `x0 = 1` gives
`1 - 1/2 = 1/2`, stored rounded (`precision = 0`) as `1` with relative
error `100`. -/
theorem c1_newton_symbolic_derivative_witness :
    Part004.newtonRaphson MExpr.evalAt MExpr.derivOf (.mul .var .var) 1 1 0 =
      .ok [⟨1, 1, some 100⟩] := by
  have hd : MExpr.derivOf (.mul .var .var) =
      .ok (.add (.mul (.num 1) .var) (.mul .var (.num 1))) := rfl
  have hF : ∀ y : ℚ, MExpr.evalAt (.mul .var .var) y = .ok (y * y) := fun y => rfl
  have hFp : ∀ y : ℚ,
      MExpr.evalAt (.add (.mul (.num 1) .var) (.mul .var (.num 1))) y =
        .ok (1 * y + y * 1) := fun y => rfl
  have hnd : ∀ j, j < 1 →
      ¬ |(fun y : ℚ => 1 * y + y * 1)
          (Part004.newtonOrbit (fun y : ℚ => y * y) (fun y : ℚ => 1 * y + y * 1) 1 j)| <
        tol := by
    intro j hj
    obtain rfl : j = 0 := by omega
    show ¬ |(1 : ℚ) * 1 + 1 * 1| < tol
    rw [tol]
    norm_num
  have h := (c1_newton_symbolic_derivative MExpr.evalAt MExpr.derivOf
    (.mul .var .var) 1 1 0 (fun y : ℚ => y * y) (fun y : ℚ => 1 * y + y * 1)
    (.add (.mul (.num 1) .var) (.mul .var (.num 1))) hd hF hFp hnd).2
  rw [h]
  have horb : Part004.newtonOrbit (fun y : ℚ => y * y) (fun y : ℚ => 1 * y + y * 1) 1 1 =
      1 / 2 := by
    show (1 : ℚ) - 1 * 1 / (1 * 1 + 1 * 1) = 1 / 2
    norm_num
  have herr : Part004.newtonErr (fun y : ℚ => y * y) (fun y : ℚ => 1 * y + y * 1) 1 0 =
      100 := by
    rw [Part004.newtonErr, horb]
    rw [show Part004.newtonOrbit (fun y : ℚ => y * y) (fun y : ℚ => 1 * y + y * 1) 1 0 =
      (1 : ℚ) from rfl]
    rw [show |((1 : ℚ) / 2 - 1) / (1 / 2)| = 1 from by norm_num [abs_of_neg]]
    norm_num
  have hround1 : roundTo 0 ((1 : ℚ) / 2) = 1 := by
    rw [roundTo, round_eq]
    norm_num
  have h100 : roundTo 0 (100 : ℚ) = 100 := by simpa using roundTo_intCast 0 100
  rw [show List.range 1 = [0] from rfl, List.map_cons, List.map_nil]
  show Except.ok [(⟨0 + 1,
      roundTo 0 (Part004.newtonOrbit (fun y : ℚ => y * y) (fun y : ℚ => 1 * y + y * 1) 1 (0 + 1)),
      some (roundTo 0 (Part004.newtonErr (fun y : ℚ => y * y) (fun y : ℚ => 1 * y + y * 1) 1 0))⟩ :
        IterationResult)] = _
  rw [show (0 : ℕ) + 1 = 1 from rfl, horb, herr, hround1, h100]

/-- **C2.** If the part_004 evaluator throws on `g` at the iterate reached
after `k` successful steps, the whole `fixedPointIteration` call fails
(`Except.error`, the embedded uncaught exception) — and no partial list
can be returned: any successful result has the full `iterations`
length. -/
theorem c2_fixedPoint_failure_propagates :
    (∀ (E : Type) (evalE : E → ℚ → Except Unit ℚ) (gExpression : E) (x0 : ℚ)
        (n p k : ℕ) (xs : ℕ → ℚ),
      xs 0 = x0 →
      (∀ j, j < k → evalE gExpression (xs j) = .ok (xs (j + 1))) →
      evalE gExpression (xs k) = .error () → k < n →
      Part004.fixedPointIteration evalE gExpression x0 n p = .error ()) ∧
    (∀ (E : Type) (evalE : E → ℚ → Except Unit ℚ) (gExpression : E) (x0 : ℚ)
        (n p : ℕ) (rs : List IterationResult),
      Part004.fixedPointIteration evalE gExpression x0 n p = .ok rs →
        rs.length = n) := by
  constructor
  · intro E evalE g x0 n p k xs hx0 hok hfail hk
    subst hx0
    exact Part004.fixedPointAux_fails evalE g p k n 1 false xs hok hfail hk
  · intro E evalE g x0 n p rs hok
    have hmap := Part004.fixedPointAux_ok_iterations evalE g p n 1 x0 false rs hok
    have hlen := congrArg List.length hmap
    simpa using hlen

/-- Witness for C2 on the concrete engine: `g(x) = 1/(x - 1)` maps
`2 ↦ 1`, and evaluating `g` at `1` divides by zero (throws), so the
three-iteration call fails whole; by contrast `g(x) = x + 1` succeeds and
returns the full-length list. -/
theorem c2_fixedPoint_failure_propagates_witness :
    Part004.fixedPointIteration MExpr.evalAt (.inv (.add .var (.num (-1)))) 2 3 0 =
      .error () ∧
    ([⟨1, 4, none⟩, ⟨2, 5, some 20⟩] : List IterationResult).length = 2 := by
  constructor
  · have hok : ∀ j, j < 1 →
        MExpr.evalAt (.inv (.add .var (.num (-1))))
            ((fun j : ℕ => if j = 0 then (2 : ℚ) else 1) j) =
          .ok ((fun j : ℕ => if j = 0 then (2 : ℚ) else 1) (j + 1)) := by
      intro j hj
      obtain rfl : j = 0 := by omega
      show MExpr.evalAt (.inv (.add .var (.num (-1)))) 2 = .ok 1
      norm_num [MExpr.evalAt, except_bind_ok, pure, Except.pure]
    have hfail : MExpr.evalAt (.inv (.add .var (.num (-1))))
        ((fun j : ℕ => if j = 0 then (2 : ℚ) else 1) 1) = .error () := by
      show MExpr.evalAt (.inv (.add .var (.num (-1)))) 1 = .error ()
      norm_num [MExpr.evalAt, except_bind_ok, pure, Except.pure]
    exact c2_fixedPoint_failure_propagates.1 MExpr MExpr.evalAt
      (.inv (.add .var (.num (-1)))) 2 3 0 1
      (fun j => if j = 0 then 2 else 1) rfl hok hfail (by omega)
  · have hok : Part004.fixedPointIteration MExpr.evalAt (.add .var (.num 1)) 3 2 0 =
        .ok [⟨1, 4, none⟩, ⟨2, 5, some 20⟩] := by
      show Part004.fixedPointAux MExpr.evalAt (.add .var (.num 1)) 0 2 1 3 false = _
      rw [show Part004.fixedPointAux MExpr.evalAt (MExpr.add MExpr.var (MExpr.num 1)) 0 2 1 3 false =
        (MExpr.evalAt (.add .var (.num 1)) 3) >>= (fun nextX =>
          (Part004.fixedPointAux MExpr.evalAt (.add .var (.num 1)) 0 1 2 nextX true) >>= fun rest =>
            .ok (⟨1, roundTo 0 nextX,
              ((if false then some (|(nextX - 3) / nextX| * 100) else none)).map (roundTo 0)⟩ :: rest)) from rfl]
      rw [show MExpr.evalAt (.add .var (.num 1)) 3 = Except.ok 4 from by
        simp [MExpr.evalAt, except_bind_ok]
        norm_num]
      rw [except_bind_ok]
      rw [show Part004.fixedPointAux MExpr.evalAt (MExpr.add MExpr.var (MExpr.num 1)) 0 1 2 (4 : ℚ) true =
        (MExpr.evalAt (.add .var (.num 1)) 4) >>= (fun nextX =>
          (Part004.fixedPointAux MExpr.evalAt (.add .var (.num 1)) 0 0 3 nextX true) >>= fun rest =>
            .ok (⟨2, roundTo 0 nextX,
              ((if true then some (|(nextX - 4) / nextX| * 100) else none)).map (roundTo 0)⟩ :: rest)) from rfl]
      rw [show MExpr.evalAt (.add .var (.num 1)) 4 = Except.ok 5 from by
        simp [MExpr.evalAt, except_bind_ok]
        norm_num]
      rw [except_bind_ok]
      rw [show Part004.fixedPointAux MExpr.evalAt (MExpr.add MExpr.var (MExpr.num 1)) 0 0 3 (5 : ℚ) true =
        Except.ok [] from rfl]
      rw [except_bind_ok, except_bind_ok]
      have h4 : roundTo 0 (4 : ℚ) = 4 := by simpa using roundTo_intCast 0 4
      have h5 : roundTo 0 (5 : ℚ) = 5 := by simpa using roundTo_intCast 0 5
      have h20 : roundTo 0 (|((5 : ℚ) - 4) / 5| * 100) = 20 := by
        rw [show |((5 : ℚ) - 4) / 5| = 1 / 5 from by norm_num [abs_of_pos]]
        rw [show (1 : ℚ) / 5 * 100 = ((20 : ℤ) : ℚ) from by norm_num]
        simpa using roundTo_intCast 0 20
      simp [h4, h5, h20]
    exact c2_fixedPoint_failure_propagates.2 MExpr MExpr.evalAt
      (.add .var (.num 1)) 3 2 0 _ hok

end Numerical
